import Mathlib

/-!
Verification of the peak-search core of the NASA-gamma repository
(src/nasagamma/peaksearch.py).

Numeric model: python/numpy double arithmetic is modelled by exact real
numbers extended with the IEEE special values +inf, -inf and NaN
(type NpF).  The special-value rules follow what numpy implements
(0 * inf = NaN, x / 0 = +-inf or NaN, sqrt of a negative number = NaN,
comparisons involving NaN are false), while finite arithmetic is exact
real arithmetic.  There is no signed zero and no overflow in the model.
-/

noncomputable section
open Classical

/-- A numpy double: a finite real number, one of the two infinities, or NaN. -/
inductive NpF where
  | fin : ℝ → NpF
  | pinf : NpF
  | ninf : NpF
  | nan : NpF

/-- IEEE negation. -/
def npNeg : NpF → NpF
  | .fin a => .fin (-a)
  | .pinf => .ninf
  | .ninf => .pinf
  | .nan => .nan

/-- IEEE addition: NaN propagates, inf + (-inf) = NaN. -/
def npAdd : NpF → NpF → NpF
  | .fin a, .fin b => .fin (a + b)
  | .fin _, .pinf => .pinf
  | .fin _, .ninf => .ninf
  | .pinf, .fin _ => .pinf
  | .ninf, .fin _ => .ninf
  | .pinf, .pinf => .pinf
  | .ninf, .ninf => .ninf
  | .pinf, .ninf => .nan
  | .ninf, .pinf => .nan
  | .nan, _ => .nan
  | _, .nan => .nan

/-- IEEE subtraction, a - b = a + (-b). -/
def npSub (a b : NpF) : NpF := npAdd a (npNeg b)

/-- IEEE multiplication: NaN propagates, 0 * inf = NaN. -/
def npMul : NpF → NpF → NpF
  | .fin a, .fin b => .fin (a * b)
  | .fin a, .pinf => if 0 < a then .pinf else if a < 0 then .ninf else .nan
  | .fin a, .ninf => if 0 < a then .ninf else if a < 0 then .pinf else .nan
  | .pinf, .fin b => if 0 < b then .pinf else if b < 0 then .ninf else .nan
  | .ninf, .fin b => if 0 < b then .ninf else if b < 0 then .pinf else .nan
  | .pinf, .pinf => .pinf
  | .pinf, .ninf => .ninf
  | .ninf, .pinf => .ninf
  | .ninf, .ninf => .pinf
  | .nan, _ => .nan
  | _, .nan => .nan

/-- IEEE division as numpy performs it: finite / 0 is +-inf (NaN for 0 / 0),
finite / inf is 0, inf / inf is NaN, NaN propagates. -/
def npDiv : NpF → NpF → NpF
  | .fin a, .fin b =>
      if b = 0 then (if 0 < a then .pinf else if a < 0 then .ninf else .nan)
      else .fin (a / b)
  | .fin _, .pinf => .fin 0
  | .fin _, .ninf => .fin 0
  | .pinf, .fin b => if 0 ≤ b then .pinf else .ninf
  | .ninf, .fin b => if 0 ≤ b then .ninf else .pinf
  | _, _ => .nan

/-- IEEE square root: NaN on negative finite input, on -inf and on NaN. -/
def npSqrt : NpF → NpF
  | .fin a => if 0 ≤ a then .fin (Real.sqrt a) else .nan
  | .pinf => .pinf
  | .ninf => .nan
  | .nan => .nan

/-- IEEE exponential. -/
def npExp : NpF → NpF
  | .fin a => .fin (Real.exp a)
  | .pinf => .pinf
  | .ninf => .fin 0
  | .nan => .nan

/-- numpy maximum (NaN propagates, as in the ufunc used by clip). -/
def npMax : NpF → NpF → NpF
  | .fin a, .fin b => .fin (max a b)
  | .fin _, .pinf => .pinf
  | .fin a, .ninf => .fin a
  | .pinf, .fin _ => .pinf
  | .ninf, .fin b => .fin b
  | .pinf, .pinf => .pinf
  | .pinf, .ninf => .pinf
  | .ninf, .pinf => .pinf
  | .ninf, .ninf => .ninf
  | .nan, _ => .nan
  | _, .nan => .nan

/-- numpy minimum (NaN propagates, as in the ufunc used by clip). -/
def npMin : NpF → NpF → NpF
  | .fin a, .fin b => .fin (min a b)
  | .fin a, .pinf => .fin a
  | .fin _, .ninf => .ninf
  | .pinf, .fin b => .fin b
  | .ninf, .fin _ => .ninf
  | .pinf, .pinf => .pinf
  | .pinf, .ninf => .ninf
  | .ninf, .pinf => .ninf
  | .ninf, .ninf => .ninf
  | .nan, _ => .nan
  | _, .nan => .nan

/-- numpy clip(lo, hi) = minimum(maximum(x, lo), hi). -/
def npClip (x lo hi : NpF) : NpF := npMin (npMax x lo) hi

/-- IEEE strict comparison: any comparison involving NaN is false. -/
def npLt : NpF → NpF → Prop
  | .fin a, .fin b => a < b
  | .fin _, .pinf => True
  | .ninf, .fin _ => True
  | .ninf, .pinf => True
  | _, _ => False

/-- IEEE non-strict comparison: any comparison involving NaN is false. -/
def npLe : NpF → NpF → Prop
  | .fin a, .fin b => a ≤ b
  | .fin _, .pinf => True
  | .ninf, .fin _ => True
  | .ninf, .pinf => True
  | .ninf, .ninf => True
  | .pinf, .pinf => True
  | _, _ => False

/-- IEEE equality test: NaN is not equal to anything, including itself. -/
def npEqP : NpF → NpF → Prop
  | .fin a, .fin b => a = b
  | .pinf, .pinf => True
  | .ninf, .ninf => True
  | _, _ => False

/-- numpy sum of a vector (starting from 0, as np.sum / np.dot do). -/
def npSum (l : List NpF) : NpF := l.foldr npAdd (.fin 0)

/-- Finite-or-NaN: the values that can actually flow through the kernel
pipeline (the infinities are produced only transiently). -/
def FinOrNan (x : NpF) : Prop := (∃ r : ℝ, x = .fin r) ∨ x = .nan

/-! ## The program model (src/nasagamma/peaksearch.py) -/

/-- Configuration fields stored by PeakSearch.__init__ (defaults as in the
source: fwhm_at_0 = 1.0, min_snr = 2). -/
structure PSConfig where
  ref_x : ℝ
  ref_fwhm : ℝ
  fwhm_at_0 : ℝ := 1
  min_snr : ℝ := 2

/-- Python runtime type tag of the object passed as the spectrum argument.
The constructor tests type(spectrum) != sp.Spectrum, which is an exact
class comparison: an instance of a strict subclass of Spectrum has a
different type tag. -/
inductive PyType where
  | spectrum : PyType
  | subclassOfSpectrum : PyType
  | other : PyType
deriving DecidableEq

/-- Modelled from the spec: the Spectrum collaborator (class sp.Spectrum of
module nasagamma.spectrum, not under src/).  It carries an ordered counts
array and a channels array of the same length (integer channels 0..N-1);
energies and the unit label play no role in the claims.  The ty field is
the Python runtime type tag used by the exact-type check in
PeakSearch.__init__. -/
structure SpectrumObj where
  ty : PyType
  channels : List ℝ
  counts : List ℝ

/-- gaussian(x, mean, sigma) = exp(-z**2 / 2) with z = (x - mean) / sigma.
x and mean are finite data (edges), sigma may be non-finite. -/
def gaussian (x mean : ℝ) (sigma : NpF) : NpF :=
  let z := npDiv (.fin (x - mean)) sigma
  npExp (npDiv (npNeg (npMul z z)) (.fin 2))

/-- gaussian_derivative(x, mean, sigma) = -1 * z * gaussian(x, mean, sigma)
with z = (x - mean). -/
def gaussian_derivative (x mean : ℝ) (sigma : NpF) : NpF :=
  npMul (npMul (.fin (-1)) (.fin (x - mean))) (gaussian x mean sigma)

namespace PeakSearch

/-- PeakSearch.fwhm: fwhm(x) = (ref_fwhm / sqrt(ref_x)) * sqrt(x) + fwhm_at_0. -/
def fwhm (cfg : PSConfig) (x : ℝ) : NpF :=
  npAdd (npMul (npDiv (.fin cfg.ref_fwhm) (npSqrt (.fin cfg.ref_x)))
               (npSqrt (.fin x)))
        (.fin cfg.fwhm_at_0)

/-- sigma = fwhm(x) / 2.355 (the literal 2.355 is 471/200). -/
def sigmaOf (cfg : PSConfig) (x : ℝ) : NpF :=
  npDiv (fwhm cfg x) (.fin (471 / 200))

/-- Number of channels: len(edges) - 1. -/
def nChannels (edges : List ℝ) : Nat := edges.length - 1

/-- Entry i of PeakSearch.kernel(x, edges):
gaussian_derivative(edges[i], x, sigma) - gaussian_derivative(edges[i+1], x, sigma). -/
def kernelEntry (cfg : PSConfig) (x : ℝ) (edges : List ℝ) (i : Nat) : NpF :=
  npSub (gaussian_derivative (edges.getD i 0) x (sigmaOf cfg x))
        (gaussian_derivative (edges.getD (i + 1) 0) x (sigmaOf cfg x))

/-- PeakSearch.kernel(x, edges) as a vector over the channel intervals. -/
def kernel (cfg : PSConfig) (x : ℝ) (edges : List ℝ) : List NpF :=
  (List.range (nChannels edges)).map (kernelEntry cfg x edges)

/-- Entry (i, j) of the raw kernel matrix kern: column j is
kernel(edges[j], edges), so kern[i, j] = kernel(edges[j], edges)[i]. -/
def kernRaw (cfg : PSConfig) (edges : List ℝ) (i j : Nat) : NpF :=
  kernelEntry cfg (edges.getD j 0) edges i

/-- Elementwise positive part: +1 * kern.clip(0, np.inf). -/
def posPart (x : NpF) : NpF := npMul (.fin 1) (npClip x (.fin 0) .pinf)

/-- Elementwise negative part: -1 * kern.clip(-np.inf, 0). -/
def negPart (x : NpF) : NpF := npMul (.fin (-1)) (npClip x .ninf (.fin 0))

/-- kern_pos.sum(axis=0) for column j. -/
def posColSum (cfg : PSConfig) (edges : List ℝ) (j : Nat) : NpF :=
  npSum ((List.range (nChannels edges)).map fun i => posPart (kernRaw cfg edges i j))

/-- kern_neg.sum(axis=0) for column j. -/
def negColSum (cfg : PSConfig) (edges : List ℝ) (j : Nat) : NpF :=
  npSum ((List.range (nChannels edges)).map fun i => negPart (kernRaw cfg edges i j))

/-- The per-column rescale factor kern_pos.sum(axis=0) / kern_neg.sum(axis=0). -/
def rescaleFactor (cfg : PSConfig) (edges : List ℝ) (j : Nat) : NpF :=
  npDiv (posColSum cfg edges j) (negColSum cfg edges j)

/-- Entry (i, j) of kern_neg after the in-place rescale kern_neg *= factor. -/
def rescaledNeg (cfg : PSConfig) (edges : List ℝ) (i j : Nat) : NpF :=
  npMul (negPart (kernRaw cfg edges i j)) (rescaleFactor cfg edges j)

/-- Entry (i, j) of the matrix kmat = kern_pos - kern_neg returned by
PeakSearch.kernel_matrix. -/
def kmatEntry (cfg : PSConfig) (edges : List ℝ) (i j : Nat) : NpF :=
  npSub (posPart (kernRaw cfg edges i j)) (rescaledNeg cfg edges i j)

/-- Row i of peak_plus_bkg = np.dot(kern_mat_pos, data), where
kern_mat_pos = +1 * kern_mat.clip(0, np.inf). -/
def peak_plus_bkg (cfg : PSConfig) (edges data : List ℝ) (i : Nat) : NpF :=
  npSum ((List.range (nChannels edges)).map fun j =>
    npMul (posPart (kmatEntry cfg edges i j)) (.fin (data.getD j 0)))

/-- Row i of bkg = np.dot(kern_mat_neg, data), where
kern_mat_neg = -1 * kern_mat.clip(-np.inf, 0). -/
def bkg (cfg : PSConfig) (edges data : List ℝ) (i : Nat) : NpF :=
  npSum ((List.range (nChannels edges)).map fun j =>
    npMul (negPart (kmatEntry cfg edges i j)) (.fin (data.getD j 0)))

/-- Row i of signal = np.dot(kern_mat, data). -/
def signal (cfg : PSConfig) (edges data : List ℝ) (i : Nat) : NpF :=
  npSum ((List.range (nChannels edges)).map fun j =>
    npMul (kmatEntry cfg edges i j) (.fin (data.getD j 0)))

/-- Row i of np.dot(kern_mat**2, data) (elementwise square of the matrix). -/
def noiseSq (cfg : PSConfig) (edges data : List ℝ) (i : Nat) : NpF :=
  npSum ((List.range (nChannels edges)).map fun j =>
    npMul (npMul (kmatEntry cfg edges i j) (kmatEntry cfg edges i j))
          (.fin (data.getD j 0)))

/-- Row i of noise = np.sqrt(np.dot(kern_mat**2, data)). -/
def noise (cfg : PSConfig) (edges data : List ℝ) (i : Nat) : NpF :=
  npSqrt (noiseSq cfg edges data i)

/-- Row i of snr: snr = np.zeros_like(signal); snr[noise > 0] =
signal[noise > 0] / noise[noise > 0]. -/
def snr (cfg : PSConfig) (edges data : List ℝ) (i : Nat) : NpF :=
  if npLt (.fin 0) (noise cfg edges data i) then
    npDiv (signal cfg edges data i) (noise cfg edges data i)
  else .fin 0

/-- snr.clip(0) elementwise: numpy clip with only a lower bound is
maximum(x, 0), and NaN propagates. -/
def clip0 (x : NpF) : NpF := npMax x (.fin 0)

end PeakSearch

/-! ### Model of scipy.signal.find_peaks (external dependency)

calculate() delegates peak extraction to
scipy.signal.find_peaks(snr.clip(0), height=min_snr).  The model below
follows the scipy implementation: a sample is a local maximum if it is
strictly greater than its immediate neighbours, a plateau of equal values
that rises on the left and falls on the right yields the single index
(left_edge + right_edge) // 2, boundary samples are never maxima, and the
height filter keeps a peak when min_snr <= value (comparisons involving
NaN are false). -/

/-- Advance i_ahead over the plateau of samples equal to v, staying below
iMax (the while loop inside scipy local maxima search). -/
def plateauEnd (x : List NpF) (iMax : Nat) (v : NpF) (iAhead : Nat) : Nat :=
  if h : iAhead < iMax ∧ npEqP (x.getD iAhead .nan) v then
    plateauEnd x iMax v (iAhead + 1)
  else iAhead
termination_by iMax - iAhead
decreasing_by
  have := h.1
  omega

/-- The main scan of scipy local maxima search over x[1..len(x)-2].  After a
peak is recorded at a plateau ending at i_ahead the loop resumes from
i_ahead + 1; since plateauEnd never returns less than its argument i + 1,
the max with i + 1 (needed only for the termination measure) is the
identity. -/
def localMaximaAux (x : List NpF) (iMax i : Nat) : List Nat :=
  if hi : i < iMax then
    if npLt (x.getD (i - 1) .nan) (x.getD i .nan) then
      if npLt (x.getD (plateauEnd x iMax (x.getD i .nan) (i + 1)) .nan)
              (x.getD i .nan) then
        (i + (plateauEnd x iMax (x.getD i .nan) (i + 1) - 1)) / 2 ::
          localMaximaAux x iMax
            (max (plateauEnd x iMax (x.getD i .nan) (i + 1) + 1) (i + 1))
      else localMaximaAux x iMax (i + 1)
    else localMaximaAux x iMax (i + 1)
  else []
termination_by iMax - i
decreasing_by
  · omega
  · omega
  · omega

/-- All plateau-resolved strict local maxima of x, in ascending order. -/
def localMaxima (x : List NpF) : List Nat := localMaximaAux x (x.length - 1) 1

/-- scipy.signal.find_peaks(x, height=h)[0]: local maxima whose value
passes the height filter h <= value. -/
def find_peaks (x : List NpF) (height : ℝ) : List Nat :=
  (localMaxima x).filter fun p => decide (npLe (.fin height) (x.getD p .nan))

namespace PeakSearch

/-- The arrays stored on the PeakSearch object by calculate(). -/
structure CalcResult where
  peak_plus_bkg : List NpF
  bkg : List NpF
  signal : List NpF
  noise : List NpF
  snr : List NpF
  peaks_idx : List Nat
  fwhm_guess : List NpF

/-- PeakSearch.calculate: build edges = np.append(channels, channels[-1] + 1)
(an IndexError when channels is empty), convolve, find peaks on snr.clip(0)
with height min_snr, and store the results (self.snr stores snr.clip(0)). -/
def calculate (cfg : PSConfig) (spec : SpectrumObj) : Except String CalcResult :=
  match spec.channels.getLast? with
  | none => .error "index -1 is out of bounds for axis 0 with size 0"
  | some last =>
      let edges := spec.channels ++ [last + 1]
      let n := nChannels edges
      let snrList := (List.range n).map fun i => snr cfg edges spec.counts i
      let clipped := snrList.map clip0
      let peaks := find_peaks clipped cfg.min_snr
      .ok
        { peak_plus_bkg := (List.range n).map fun i => peak_plus_bkg cfg edges spec.counts i
          bkg := (List.range n).map fun i => bkg cfg edges spec.counts i
          signal := (List.range n).map fun i => signal cfg edges spec.counts i
          noise := (List.range n).map fun i => noise cfg edges spec.counts i
          snr := clipped
          peaks_idx := peaks
          fwhm_guess := peaks.map fun p => fwhm cfg (p : ℝ) }

/-- PeakSearch.__init__: raise unless type(spectrum) == sp.Spectrum (no
other validation is performed), store the configuration, then run
calculate(). -/
def init (cfg : PSConfig) (spec : SpectrumObj) : Except String CalcResult :=
  if spec.ty ≠ PyType.spectrum then .error "spectrum must be a Spectrum object"
  else calculate cfg spec

end PeakSearch

/-- The peaks_idx list of a construction result ([] when construction failed). -/
def resPeaks (r : Except String PeakSearch.CalcResult) : List Nat :=
  match r with
  | .ok c => c.peaks_idx
  | .error _ => []

/-- The stored (clipped) snr list of a construction result. -/
def resSnr (r : Except String PeakSearch.CalcResult) : List NpF :=
  match r with
  | .ok c => c.snr
  | .error _ => []

/-- Whether construction succeeded. -/
def resOk (r : Except String PeakSearch.CalcResult) : Bool :=
  match r with
  | .ok _ => true
  | .error _ => false

/-! ## Concrete instances used by counterexamples and witnesses -/

/-- A configuration with ref_x = 1, ref_fwhm = 0.2355 and fwhm_at_0 = 2.355,
so that the kernel width is sigma(x) = 1 + sqrt(x) / 10, and min_snr = 1. -/
def cfg1 : PSConfig := { ref_x := 1, ref_fwhm := 471 / 2000, fwhm_at_0 := 471 / 200, min_snr := 1 }

/-- The same configuration with the non-positive reference channel ref_x = 0. -/
def cfg2 : PSConfig := { ref_x := 0, ref_fwhm := 471 / 2000, fwhm_at_0 := 471 / 200, min_snr := 1 }

/-- A four-channel spectrum with a unit count in channel 2. -/
def spec1 : SpectrumObj := { ty := .spectrum, channels := [0, 1, 2, 3], counts := [0, 0, 1, 0] }

/-- A zero-length spectrum. -/
def specEmpty : SpectrumObj := { ty := .spectrum, channels := [], counts := [] }

/-- An object whose runtime type is a strict subclass of Spectrum. -/
def specSub : SpectrumObj := { ty := .subclassOfSpectrum, channels := [0], counts := [5] }

/-- Edges of a one-channel spectrum. -/
def edges2 : List ℝ := [0, 1]

/-- The edges calculate() builds for spec1. -/
def edgesW : List ℝ := [0, 1, 2, 3, 4]

/-- The kernel sigma at channel 2 under cfg1. -/
def sig2v : ℝ := Real.sqrt 2 / 10 + 1

/-- The kernel sigma at channel 3 under cfg1. -/
def sig3v : ℝ := Real.sqrt 3 / 10 + 1

/-- The real value of gaussian_derivative at finite inputs. -/
def gdVal (t mean sv : ℝ) : ℝ :=
  -1 * (t - mean) * Real.exp (-((t - mean) / sv * ((t - mean) / sv)) / 2)

/-- The unit-distance exponent of the column-2 kernel of cfg1 over edgesW. -/
def q2 : ℝ := -(1 / sig2v * (1 / sig2v)) / 2

/-- The unit-distance exponent of the column-3 kernel of cfg1 over edgesW. -/
def q3 : ℝ := -(1 / sig3v * (1 / sig3v)) / 2

/-- Magnitude of each negative entry of column 2 of the raw kernel matrix. -/
def colB2 : ℝ := Real.exp q2 - 2 * Real.exp (4 * q2)

/-- The rescale factor of column 2 of the kernel matrix of cfg1 over edgesW. -/
def rho2 : ℝ := 2 * Real.exp q2 / (2 * colB2)

/-- The clipped snr list calculate() produces for cfg1 and spec1. -/
def snrClip1 : List NpF := [.fin 0, .fin 1, .fin 1, .fin 0]


@[simp] theorem npNeg_fin (a : ℝ) : npNeg (.fin a) = .fin (-a) := rfl

@[simp] theorem npAdd_fin (a b : ℝ) : npAdd (.fin a) (.fin b) = .fin (a + b) := rfl

@[simp] theorem npSub_fin (a b : ℝ) : npSub (.fin a) (.fin b) = .fin (a - b) := by
  simp [npSub, npAdd, sub_eq_add_neg]

@[simp] theorem npMul_fin (a b : ℝ) : npMul (.fin a) (.fin b) = .fin (a * b) := rfl

@[simp] theorem npExp_fin (a : ℝ) : npExp (.fin a) = .fin (Real.exp a) := rfl

theorem npDiv_fin (a b : ℝ) (hb : b ≠ 0) : npDiv (.fin a) (.fin b) = .fin (a / b) := by
  simp [npDiv, hb]

theorem npSqrt_fin (a : ℝ) (ha : 0 ≤ a) : npSqrt (.fin a) = .fin (Real.sqrt a) := by
  simp [npSqrt, ha]

@[simp] theorem npAdd_nan_right (x : NpF) : npAdd x .nan = .nan := by cases x <;> rfl

@[simp] theorem npAdd_nan_left (x : NpF) : npAdd .nan x = .nan := by cases x <;> rfl

@[simp] theorem npSub_nan_right (x : NpF) : npSub x .nan = .nan := by cases x <;> rfl

@[simp] theorem npMul_nan_right (x : NpF) : npMul x .nan = .nan := by cases x <;> rfl

@[simp] theorem npMul_nan_left (x : NpF) : npMul .nan x = .nan := by cases x <;> rfl

@[simp] theorem npSum_nil : npSum [] = .fin 0 := rfl

@[simp] theorem npSum_cons (a : NpF) (l : List NpF) :
    npSum (a :: l) = npAdd a (npSum l) := rfl

@[simp] theorem npLt_fin (a b : ℝ) : npLt (.fin a) (.fin b) ↔ a < b := Iff.rfl

@[simp] theorem npLe_fin (a b : ℝ) : npLe (.fin a) (.fin b) ↔ a ≤ b := Iff.rfl

@[simp] theorem npEqP_fin (a b : ℝ) : npEqP (.fin a) (.fin b) ↔ a = b := Iff.rfl

theorem npAdd_eq_fin (x y : NpF) (s : ℝ) (h : npAdd x y = .fin s) :
    ∃ a b : ℝ, x = .fin a ∧ y = .fin b ∧ a + b = s := by
  cases x <;> cases y <;> simp [npAdd] at h
  exact ⟨_, _, rfl, rfl, h⟩

/-- A sum that comes out finite must have had all-finite summands. -/
theorem npSum_eq_fin (l : List NpF) (s : ℝ) (h : npSum l = .fin s) :
    ∃ rs : List ℝ, l = rs.map NpF.fin ∧ rs.sum = s := by
  induction l generalizing s with
  | nil =>
      refine ⟨[], rfl, ?_⟩
      simpa [npSum] using h
  | cons a t ih =>
      rw [npSum_cons] at h
      obtain ⟨x, y, hx, hy, hxy⟩ := npAdd_eq_fin _ _ _ h
      obtain ⟨rs, hrs, hsum⟩ := ih y hy
      exact ⟨x :: rs, by simp [hx, hrs], by simp [hsum, hxy]⟩

theorem npSum_map_fin (rs : List ℝ) : npSum (rs.map NpF.fin) = .fin rs.sum := by
  induction rs with
  | nil => simp
  | cons a t ih => simp [ih]

theorem npSum_of_mem_nan (l : List NpF) (h : .nan ∈ l) : npSum l = .nan := by
  induction l with
  | nil => simp at h
  | cons a t ih =>
      rcases List.mem_cons.1 h with h | h
      · simp [← h]
      · simp [ih h]

theorem npSum_fin_of_all_fin (l : List NpF) (h : ∀ x ∈ l, ∃ r : ℝ, x = .fin r) :
    ∃ s : ℝ, npSum l = .fin s := by
  induction l with
  | nil => exact ⟨0, rfl⟩
  | cons a t ih =>
      obtain ⟨r, hr⟩ := h a (by simp)
      obtain ⟨s, hsum⟩ := ih fun x hx => h x (by simp [hx])
      exact ⟨r + s, by rw [npSum_cons, hr, hsum, npAdd_fin]⟩

/-- A sum of nonnegative reals is zero only if every summand is zero. -/
theorem list_sum_zero_of_nonneg (l : List ℝ) (h0 : ∀ x ∈ l, 0 ≤ x) (hs : l.sum = 0) :
    ∀ x ∈ l, x = 0 := by
  induction l with
  | nil => simp
  | cons a t ih =>
      have ha : 0 ≤ a := h0 a (by simp)
      have ht : 0 ≤ t.sum := List.sum_nonneg fun x hx => h0 x (by simp [hx])
      have hsum : a + t.sum = 0 := by simpa using hs
      have ha0 : a = 0 := by linarith
      have ht0 : t.sum = 0 := by linarith
      intro x hx
      rcases List.mem_cons.1 hx with h | h
      · simpa [h] using ha0
      · exact ih (fun y hy => h0 y (by simp [hy])) ht0 x h





/-! ## Structural lemmas about the kernel pipeline -/

namespace PeakSearch

theorem posPart_fin (a : ℝ) : posPart (.fin a) = .fin (max a 0) := by
  simp [posPart, npClip, npMax, npMin, npMul]

theorem negPart_fin (a : ℝ) : negPart (.fin a) = .fin (-(min a 0)) := by
  simp [negPart, npClip, npMax, npMin, npMul]

theorem posPart_fin_of_nonneg (a : ℝ) (h : 0 ≤ a) : posPart (.fin a) = .fin a := by
  rw [posPart_fin, max_eq_left h]

theorem posPart_fin_of_nonpos (a : ℝ) (h : a ≤ 0) : posPart (.fin a) = .fin 0 := by
  rw [posPart_fin, max_eq_right h]

theorem negPart_fin_of_nonneg (a : ℝ) (h : 0 ≤ a) : negPart (.fin a) = .fin 0 := by
  rw [negPart_fin, min_eq_right h, neg_zero]

theorem negPart_fin_of_nonpos (a : ℝ) (h : a ≤ 0) : negPart (.fin a) = .fin (-a) := by
  rw [negPart_fin, min_eq_left h]

@[simp] theorem posPart_nan : posPart .nan = .nan := rfl

@[simp] theorem negPart_nan : negPart .nan = .nan := rfl

theorem npExpChain_finOrNan (z : NpF) :
    FinOrNan (npExp (npDiv (npNeg (npMul z z)) (.fin 2))) := by
  cases z with
  | fin r =>
      rw [npMul_fin, npNeg_fin, npDiv_fin _ _ (by norm_num : (2 : ℝ) ≠ 0), npExp_fin]
      exact Or.inl ⟨_, rfl⟩
  | pinf =>
      have : npDiv (npNeg (npMul NpF.pinf NpF.pinf)) (.fin 2) = .ninf := by
        norm_num [npMul, npNeg, npDiv]
      rw [this]
      exact Or.inl ⟨0, rfl⟩
  | ninf =>
      have : npDiv (npNeg (npMul NpF.ninf NpF.ninf)) (.fin 2) = .ninf := by
        norm_num [npMul, npNeg, npDiv]
      rw [this]
      exact Or.inl ⟨0, rfl⟩
  | nan => exact Or.inr rfl

theorem gaussian_finOrNan (x mean : ℝ) (s : NpF) : FinOrNan (gaussian x mean s) := by
  unfold gaussian
  exact npExpChain_finOrNan _

theorem gaussian_derivative_finOrNan (x mean : ℝ) (s : NpF) :
    FinOrNan (gaussian_derivative x mean s) := by
  unfold gaussian_derivative
  rcases gaussian_finOrNan x mean s with ⟨r, hr⟩ | hr <;> rw [hr]
  · exact Or.inl ⟨_, rfl⟩
  · exact Or.inr (by simp)

theorem kernelEntry_finOrNan (cfg : PSConfig) (x : ℝ) (edges : List ℝ) (i : Nat) :
    FinOrNan (kernelEntry cfg x edges i) := by
  unfold kernelEntry
  rcases gaussian_derivative_finOrNan (edges.getD i 0) x (sigmaOf cfg x) with ⟨r, hr⟩ | hr <;>
    rcases gaussian_derivative_finOrNan (edges.getD (i + 1) 0) x (sigmaOf cfg x) with
      ⟨r2, hr2⟩ | hr2 <;> rw [hr, hr2]
  · exact Or.inl ⟨_, npSub_fin r r2⟩
  · exact Or.inr (by simp)
  · exact Or.inr (by simp [npSub, npAdd])
  · exact Or.inr (by simp)

theorem kernRaw_finOrNan (cfg : PSConfig) (edges : List ℝ) (i j : Nat) :
    FinOrNan (kernRaw cfg edges i j) :=
  kernelEntry_finOrNan cfg _ edges i

theorem posPart_finOrNan (x : NpF) (h : FinOrNan x) : FinOrNan (posPart x) := by
  rcases h with ⟨r, hr⟩ | hr <;> subst hr
  · exact Or.inl ⟨_, posPart_fin r⟩
  · exact Or.inr rfl

theorem negPart_finOrNan (x : NpF) (h : FinOrNan x) : FinOrNan (negPart x) := by
  rcases h with ⟨r, hr⟩ | hr <;> subst hr
  · exact Or.inl ⟨_, negPart_fin r⟩
  · exact Or.inr rfl

theorem npAdd_finOrNan (x y : NpF) (hx : FinOrNan x) (hy : FinOrNan y) :
    FinOrNan (npAdd x y) := by
  rcases hx with ⟨a, ha⟩ | ha <;> rcases hy with ⟨b, hb⟩ | hb <;> subst ha <;> subst hb
  · exact Or.inl ⟨_, rfl⟩
  all_goals exact Or.inr (by simp)

theorem npSum_finOrNan (l : List NpF) (h : ∀ x ∈ l, FinOrNan x) : FinOrNan (npSum l) := by
  induction l with
  | nil => exact Or.inl ⟨0, rfl⟩
  | cons a t ih =>
      rw [npSum_cons]
      exact npAdd_finOrNan _ _ (h a (by simp)) (ih fun x hx => h x (by simp [hx]))

theorem negColSum_finOrNan (cfg : PSConfig) (edges : List ℝ) (j : Nat) :
    FinOrNan (negColSum cfg edges j) := by
  apply npSum_finOrNan
  intro x hx
  obtain ⟨i, _, rfl⟩ := List.mem_map.1 hx
  exact negPart_finOrNan _ (kernRaw_finOrNan cfg edges i j)

theorem posColSum_finOrNan (cfg : PSConfig) (edges : List ℝ) (j : Nat) :
    FinOrNan (posColSum cfg edges j) := by
  apply npSum_finOrNan
  intro x hx
  obtain ⟨i, _, rfl⟩ := List.mem_map.1 hx
  exact posPart_finOrNan _ (kernRaw_finOrNan cfg edges i j)

/-- Dividing by a finite zero never yields a finite value. -/
theorem npDiv_by_zero_cases (x : NpF) :
    npDiv x (.fin 0) = .pinf ∨ npDiv x (.fin 0) = .ninf ∨ npDiv x (.fin 0) = .nan := by
  cases x with
  | fin a =>
      rcases lt_trichotomy 0 a with h | h | h
      · exact Or.inl (by simp [npDiv, h])
      · exact Or.inr (Or.inr (by simp [npDiv, ← h]))
      · exact Or.inr (Or.inl (by simp [npDiv, h, not_lt_of_gt h]))
  | pinf => exact Or.inl (by simp [npDiv])
  | ninf => exact Or.inr (Or.inl (by simp [npDiv]))
  | nan => exact Or.inr (Or.inr rfl)

/-- Multiplying the finite zero by a non-finite value yields NaN. -/
theorem npMul_zero_nonfin (r : NpF) (h : r = .pinf ∨ r = .ninf ∨ r = .nan) :
    npMul (.fin 0) r = .nan := by
  rcases h with h | h | h <;> subst h <;> simp [npMul]

/-- The rescale factor is finite or NaN except when the negative column sum
is the finite zero. -/
theorem rescaleFactor_finOrNan (cfg : PSConfig) (edges : List ℝ) (j : Nat)
    (h : negColSum cfg edges j ≠ .fin 0) : FinOrNan (rescaleFactor cfg edges j) := by
  unfold rescaleFactor
  rcases posColSum_finOrNan cfg edges j with ⟨p, hp⟩ | hp <;>
    rcases negColSum_finOrNan cfg edges j with ⟨s, hs⟩ | hs <;> rw [hp, hs]
  · have hs0 : s ≠ 0 := fun h0 => h (by rw [hs, h0])
    rw [npDiv_fin _ _ hs0]
    exact Or.inl ⟨_, rfl⟩
  · exact Or.inr rfl
  · exact Or.inr rfl
  · exact Or.inr rfl

end PeakSearch

namespace PeakSearch

/-- If the negative column sum is the finite zero, every in-range negative
part of that column is the finite zero. -/
theorem negPart_zero_of_negColSum_zero (cfg : PSConfig) (edges : List ℝ) (i j : Nat)
    (hi : i < nChannels edges) (h : negColSum cfg edges j = .fin 0) :
    negPart (kernRaw cfg edges i j) = .fin 0 := by
  obtain ⟨rs, hrs, hsum⟩ := npSum_eq_fin _ _ h
  have hmem : negPart (kernRaw cfg edges i j) ∈
      (List.range (nChannels edges)).map fun i => negPart (kernRaw cfg edges i j) :=
    List.mem_map.2 ⟨i, List.mem_range.2 hi, rfl⟩
  rw [hrs] at hmem
  obtain ⟨c, hc, hcfin⟩ := List.mem_map.1 hmem
  have hnonneg : ∀ y ∈ rs, 0 ≤ y := by
    intro y hy
    have hymem : NpF.fin y ∈
        (List.range (nChannels edges)).map fun i => negPart (kernRaw cfg edges i j) := by
      rw [hrs]
      exact List.mem_map.2 ⟨y, hy, rfl⟩
    obtain ⟨i2, _, hi2⟩ := List.mem_map.1 hymem
    rcases kernRaw_finOrNan cfg edges i2 j with ⟨r, hr⟩ | hr
    · rw [hr, negPart_fin] at hi2
      have : -(min r 0) = y := by
        have := hi2
        injection this
      rw [← this]
      simp [neg_nonneg, min_le_iff]
    · rw [hr, negPart_nan] at hi2
      exact absurd hi2 (by simp)
  have hc0 : c = 0 := list_sum_zero_of_nonneg rs hnonneg hsum c hc
  rw [← hcfin, hc0]

/-- Every in-range entry of the kernel matrix is finite or NaN (the
infinities that can arise in the rescale factor are killed by the
0 * inf = NaN rule against the necessarily-zero negative parts). -/
theorem kmatEntry_finOrNan (cfg : PSConfig) (edges : List ℝ) (i j : Nat)
    (hi : i < nChannels edges) : FinOrNan (kmatEntry cfg edges i j) := by
  unfold kmatEntry rescaledNeg
  by_cases hz : negColSum cfg edges j = .fin 0
  · rw [negPart_zero_of_negColSum_zero cfg edges i j hi hz]
    have hresc : rescaleFactor cfg edges j = .pinf ∨ rescaleFactor cfg edges j = .ninf ∨
        rescaleFactor cfg edges j = .nan := by
      unfold rescaleFactor
      rw [hz]
      exact npDiv_by_zero_cases _
    rw [npMul_zero_nonfin _ hresc, npSub_nan_right]
    exact Or.inr rfl
  · rcases kernRaw_finOrNan cfg edges i j with ⟨r, hr⟩ | hr
    · rw [hr, posPart_fin, negPart_fin]
      rcases rescaleFactor_finOrNan cfg edges j hz with ⟨q, hq⟩ | hq
      · rw [hq, npMul_fin, npSub_fin]
        exact Or.inl ⟨_, rfl⟩
      · rw [hq, npMul_nan_right, npSub_nan_right]
        exact Or.inr rfl
    · rw [hr, posPart_nan, negPart_nan, npMul_nan_left, npSub_nan_right]
      exact Or.inr rfl

/-- In a column whose negative sum is finite and nonzero, every in-range
kernel matrix entry is finite. -/
theorem kmatEntry_fin_of_negColSum (cfg : PSConfig) (edges : List ℝ) (i j : Nat)
    (hi : i < nChannels edges) (s : ℝ) (hs : negColSum cfg edges j = .fin s)
    (hs0 : s ≠ 0) : ∃ r : ℝ, kmatEntry cfg edges i j = .fin r := by
  have hrawNotNan : ∀ i2, i2 < nChannels edges → kernRaw cfg edges i2 j ≠ .nan := by
    intro i2 hi2 h
    have hmem : NpF.nan ∈
        (List.range (nChannels edges)).map fun i => negPart (kernRaw cfg edges i j) :=
      List.mem_map.2 ⟨i2, List.mem_range.2 hi2, by rw [h, negPart_nan]⟩
    have hnan : negColSum cfg edges j = NpF.nan := npSum_of_mem_nan _ hmem
    rw [hs] at hnan
    exact absurd hnan (by simp)
  have hraw : ∃ r : ℝ, kernRaw cfg edges i j = .fin r := by
    rcases kernRaw_finOrNan cfg edges i j with h | h
    · exact h
    · exact absurd h (hrawNotNan i hi)
  obtain ⟨r, hr⟩ := hraw
  have hne : negColSum cfg edges j ≠ .fin 0 := by
    rw [hs]
    intro hcon
    injection hcon with h2
    exact hs0 h2
  have hfon : FinOrNan (rescaleFactor cfg edges j) := rescaleFactor_finOrNan cfg edges j hne
  rcases hfon with ⟨q, hq⟩ | hq
  · refine ⟨max r 0 - -(min r 0) * q, ?_⟩
    unfold kmatEntry rescaledNeg
    rw [hr, posPart_fin, negPart_fin, hq, npMul_fin, npSub_fin]
  · exfalso
    have hposf : FinOrNan (posColSum cfg edges j) := posColSum_finOrNan cfg edges j
    rcases hposf with ⟨p, hp⟩ | hp
    · have : rescaleFactor cfg edges j = .fin (p / s) := by
        unfold rescaleFactor
        rw [hp, hs, npDiv_fin _ _ hs0]
      rw [hq] at this
      exact absurd this (by simp)
    · -- posColSum is NaN would force some raw entry to be NaN, contradicting
      -- the finite negative column sum
      have hall : ∀ x ∈ (List.range (nChannels edges)).map
          fun i => posPart (kernRaw cfg edges i j), ∃ r : ℝ, x = .fin r := by
        intro x hx
        obtain ⟨i2, hi2, rfl⟩ := List.mem_map.1 hx
        rcases kernRaw_finOrNan cfg edges i2 j with ⟨r2, h2⟩ | h2
        · exact ⟨_, by rw [h2, posPart_fin]⟩
        · exact absurd h2 (hrawNotNan i2 (List.mem_range.1 hi2))
      obtain ⟨p2, hp2⟩ := npSum_fin_of_all_fin _ hall
      have hps : posColSum cfg edges j = NpF.fin p2 := hp2
      rw [hp] at hps
      exact absurd hps (by simp)

end PeakSearch

namespace PeakSearch

/-- All raw entries of a column with a finite negative sum are finite. -/
theorem kernRaw_fin_of_negColSum_fin (cfg : PSConfig) (edges : List ℝ) (j : Nat)
    (s : ℝ) (hs : negColSum cfg edges j = .fin s) (i : Nat)
    (hi : i < nChannels edges) : ∃ r : ℝ, kernRaw cfg edges i j = .fin r := by
  rcases kernRaw_finOrNan cfg edges i j with h | h
  · exact h
  · exfalso
    have hmem : NpF.nan ∈
        (List.range (nChannels edges)).map fun i => negPart (kernRaw cfg edges i j) :=
      List.mem_map.2 ⟨i, List.mem_range.2 hi, by rw [h, negPart_nan]⟩
    have hnan : negColSum cfg edges j = NpF.nan := npSum_of_mem_nan _ hmem
    rw [hs] at hnan
    exact absurd hnan (by simp)

/-- The positive column sum is finite whenever the negative one is. -/
theorem posColSum_fin_of_negColSum_fin (cfg : PSConfig) (edges : List ℝ) (j : Nat)
    (s : ℝ) (hs : negColSum cfg edges j = .fin s) :
    ∃ p : ℝ, posColSum cfg edges j = .fin p := by
  unfold posColSum
  apply npSum_fin_of_all_fin
  intro x hx
  obtain ⟨i2, hi2, rfl⟩ := List.mem_map.1 hx
  obtain ⟨r, hr⟩ := kernRaw_fin_of_negColSum_fin cfg edges j s hs i2 (List.mem_range.1 hi2)
  exact ⟨_, by rw [hr, posPart_fin]⟩

end PeakSearch

theorem list_sum_map_mul (rs : List ℝ) (k : ℝ) :
    (rs.map fun r => r * k).sum = rs.sum * k := by
  induction rs with
  | nil => simp
  | cons a t ih => simp [ih, add_mul]

theorem list_map_sum_sub (l : List ℕ) (f g : ℕ → ℝ) :
    (l.map f).sum - (l.map g).sum = (l.map fun j => f j - g j).sum := by
  induction l with
  | nil => simp
  | cons a t ih =>
      simp only [List.map_cons, List.sum_cons, ← ih]
      ring

theorem npSum_map_fin_comp (l : List ℕ) (g : ℕ → ℝ) :
    npSum (l.map fun j => NpF.fin (g j)) = .fin ((l.map g).sum) := by
  induction l with
  | nil => rfl
  | cons a t ih => simp [ih]

theorem npSum_zero_of_elems (l : List ℕ) (F : ℕ → NpF)
    (h : ∀ j ∈ l, F j = .fin 0) : npSum (l.map F) = .fin 0 := by
  induction l with
  | nil => rfl
  | cons a t ih =>
      rw [List.map_cons, npSum_cons, h a (by simp),
        ih fun j hj => h j (by simp [hj]), npAdd_fin, add_zero]

namespace PeakSearch

/-- C3: for every configuration with ref_x > 0 and every x >= 0 the fwhm
method computes (ref_fwhm / sqrt(ref_x)) * sqrt(x) + fwhm_at_0 as a finite
value, and in particular fwhm(0) = fwhm_at_0 exactly. -/
theorem c3_fwhm_formula (cfg : PSConfig) (x : ℝ) (h1 : 0 < cfg.ref_x) (h2 : 0 ≤ x) :
    fwhm cfg x = .fin (cfg.ref_fwhm / Real.sqrt cfg.ref_x * Real.sqrt x +
      cfg.fwhm_at_0) ∧ fwhm cfg 0 = .fin cfg.fwhm_at_0 := by
  have hsx1 : Real.sqrt cfg.ref_x ≠ 0 := ne_of_gt (Real.sqrt_pos.2 h1)
  constructor
  · unfold fwhm
    rw [npSqrt_fin _ h1.le, npDiv_fin _ _ hsx1, npSqrt_fin _ h2, npMul_fin, npAdd_fin]
  · unfold fwhm
    rw [npSqrt_fin _ h1.le, npDiv_fin _ _ hsx1, npSqrt_fin _ le_rfl, Real.sqrt_zero,
      npMul_fin, npAdd_fin, mul_zero, zero_add]

/-- C4: for every edges vector and every in-range column of the kernel
matrix whose negative-part column sum is finite and nonzero, the sum of the
rescaled negative-part column equals the sum of the positive-part column
exactly (the zero-sum kernel property). -/
theorem c4_zero_sum_columns (cfg : PSConfig) (edges : List ℝ) (j : Nat)
    (hj : j < nChannels edges) (s : ℝ) (hs : negColSum cfg edges j = .fin s)
    (hs0 : s ≠ 0) :
    npSum ((List.range (nChannels edges)).map fun i => rescaledNeg cfg edges i j) =
      posColSum cfg edges j := by
  obtain ⟨p, hp⟩ := posColSum_fin_of_negColSum_fin cfg edges j s hs
  obtain ⟨rs, hrs, hsum⟩ := npSum_eq_fin _ _ hs
  have hfac : rescaleFactor cfg edges j = .fin (p / s) := by
    unfold rescaleFactor
    rw [hp, hs, npDiv_fin _ _ hs0]
  have h1 : ((List.range (nChannels edges)).map fun i => rescaledNeg cfg edges i j) =
      (rs.map fun r => NpF.fin (r * (p / s))) := by
    simp only [rescaledNeg, hfac]
    have h2 : ((List.range (nChannels edges)).map fun i =>
        npMul (negPart (kernRaw cfg edges i j)) (NpF.fin (p / s))) =
        ((List.range (nChannels edges)).map fun i =>
          negPart (kernRaw cfg edges i j)).map fun v => npMul v (NpF.fin (p / s)) := by
      rw [List.map_map]
      rfl
    rw [h2, hrs, List.map_map]
    rfl
  rw [h1]
  have h3 : (rs.map fun r => NpF.fin (r * (p / s))) =
      (rs.map fun r => r * (p / s)).map NpF.fin := by
    rw [List.map_map]
    rfl
  rw [h3, npSum_map_fin, list_sum_map_mul, hsum, hp]
  congr 1
  rw [mul_comm]
  exact div_mul_cancel₀ p hs0

/-- In each row below the channel count, every kernel matrix entry that is
NaN makes the corresponding noiseSq row NaN. -/
theorem noiseSq_eq_nan_of_entry (cfg : PSConfig) (edges data : List ℝ) (i j : Nat)
    (hj : j < nChannels edges) (h : kmatEntry cfg edges i j = .nan) :
    noiseSq cfg edges data i = .nan := by
  apply npSum_of_mem_nan
  exact List.mem_map.2 ⟨j, List.mem_range.2 hj, by rw [h]; simp⟩

/-- The snr row values are always finite: the only division is taken behind
the noise > 0 mask, and a NaN in the row forces the mask to be false. -/
theorem snr_isFin (cfg : PSConfig) (edges data : List ℝ) (i : Nat)
    (hi : i < nChannels edges) : ∃ r : ℝ, snr cfg edges data i = .fin r := by
  unfold snr
  by_cases hlt : npLt (.fin 0) (noise cfg edges data i)
  · rw [if_pos hlt]
    have hns : FinOrNan (noiseSq cfg edges data i) := by
      apply npSum_finOrNan
      intro x hx
      obtain ⟨j, hj, rfl⟩ := List.mem_map.1 hx
      rcases kmatEntry_finOrNan cfg edges i j hi with ⟨r, hr⟩ | hr
      · rw [hr, npMul_fin, npMul_fin]
        exact Or.inl ⟨_, rfl⟩
      · rw [hr]
        exact Or.inr (by simp)
    rcases hns with ⟨u, hu⟩ | hu
    · by_cases hu0 : 0 ≤ u
      · have hnoise : noise cfg edges data i = .fin (Real.sqrt u) := by
          unfold noise
          rw [hu, npSqrt_fin _ hu0]
        rw [hnoise] at hlt
        have hsqpos : (0 : ℝ) < Real.sqrt u := hlt
        have hsig : ∃ w : ℝ, signal cfg edges data i = .fin w := by
          apply npSum_fin_of_all_fin
          intro x hx
          obtain ⟨j, hj, rfl⟩ := List.mem_map.1 hx
          rcases kmatEntry_finOrNan cfg edges i j hi with ⟨r, hr⟩ | hr
          · exact ⟨_, by rw [hr, npMul_fin]⟩
          · exfalso
            have hnan := noiseSq_eq_nan_of_entry cfg edges data i j (List.mem_range.1 hj) hr
            rw [hu] at hnan
            exact absurd hnan (by simp)
        obtain ⟨w, hw⟩ := hsig
        rw [hw, hnoise, npDiv_fin _ _ (ne_of_gt hsqpos)]
        exact ⟨_, rfl⟩
      · exfalso
        have hnoise : noise cfg edges data i = NpF.nan := by
          unfold noise
          rw [hu]
          simp [npSqrt, hu0]
        rw [hnoise] at hlt
        exact absurd hlt (by simp [npLt])
    · exfalso
      have hnoise : noise cfg edges data i = NpF.nan := by
        unfold noise
        rw [hu]
        rfl
      rw [hnoise] at hlt
      exact absurd hlt (by simp [npLt])
  · rw [if_neg hlt]
    exact ⟨0, rfl⟩

/-- C5: snr equals signal / noise exactly where noise > 0, is 0 where noise
is 0, and is always a finite value (no NaN or Inf leaks into snr). -/
theorem c5_snr_zero_guard (cfg : PSConfig) (edges data : List ℝ) (i : Nat)
    (hi : i < nChannels edges) :
    (∀ v : ℝ, noise cfg edges data i = .fin v →
        ((0 < v → snr cfg edges data i =
            npDiv (signal cfg edges data i) (noise cfg edges data i)) ∧
         (v = 0 → snr cfg edges data i = .fin 0))) ∧
    ∃ r : ℝ, snr cfg edges data i = .fin r := by
  refine ⟨fun v hv => ⟨fun hv0 => ?_, fun hv0 => ?_⟩, snr_isFin cfg edges data i hi⟩
  · unfold snr
    rw [if_pos (show npLt (.fin 0) (noise cfg edges data i) from by rw [hv]; exact hv0)]
  · unfold snr
    rw [if_neg]
    intro hc
    rw [hv, hv0] at hc
    exact absurd hc (by simp)

/-- C9: each convolution row satisfies signal = peak_plus_bkg - bkg, because
clipping the assembled matrix recovers its positive and negative parts and
the dot products distribute (with NaN propagating consistently on all
sides in the degenerate case). -/
theorem c9_signal_decomposition (cfg : PSConfig) (edges data : List ℝ) (i : Nat)
    (hi : i < nChannels edges) :
    signal cfg edges data i =
      npSub (peak_plus_bkg cfg edges data i) (bkg cfg edges data i) := by
  by_cases hnan : ∃ j, j < nChannels edges ∧ kmatEntry cfg edges i j = .nan
  · obtain ⟨j0, hj0, hj0n⟩ := hnan
    have hsig : signal cfg edges data i = .nan :=
      npSum_of_mem_nan _ (List.mem_map.2 ⟨j0, List.mem_range.2 hj0, by rw [hj0n]; simp⟩)
    have hpkb : peak_plus_bkg cfg edges data i = .nan :=
      npSum_of_mem_nan _ (List.mem_map.2 ⟨j0, List.mem_range.2 hj0, by rw [hj0n]; simp⟩)
    have hbkg : bkg cfg edges data i = .nan :=
      npSum_of_mem_nan _ (List.mem_map.2 ⟨j0, List.mem_range.2 hj0, by rw [hj0n]; simp⟩)
    rw [hsig, hpkb, hbkg]
    rfl
  · push_neg at hnan
    have hall : ∀ j : ℕ, ∃ r : ℝ, j < nChannels edges → kmatEntry cfg edges i j = .fin r := by
      intro j
      by_cases hj : j < nChannels edges
      · rcases kmatEntry_finOrNan cfg edges i j hi with ⟨r, hr⟩ | h
        · exact ⟨r, fun _ => hr⟩
        · exact absurd h (hnan j hj)
      · exact ⟨0, fun hc => absurd hc hj⟩
    choose k hk using hall
    have hsig : ((List.range (nChannels edges)).map fun j =>
        npMul (kmatEntry cfg edges i j) (.fin (data.getD j 0))) =
        (List.range (nChannels edges)).map fun j => NpF.fin (k j * data.getD j 0) := by
      apply List.map_congr_left
      intro j hj
      rw [hk j (List.mem_range.1 hj), npMul_fin]
    have hpos : ((List.range (nChannels edges)).map fun j =>
        npMul (posPart (kmatEntry cfg edges i j)) (.fin (data.getD j 0))) =
        (List.range (nChannels edges)).map fun j =>
          NpF.fin (max (k j) 0 * data.getD j 0) := by
      apply List.map_congr_left
      intro j hj
      rw [hk j (List.mem_range.1 hj), posPart_fin, npMul_fin]
    have hneg : ((List.range (nChannels edges)).map fun j =>
        npMul (negPart (kmatEntry cfg edges i j)) (.fin (data.getD j 0))) =
        (List.range (nChannels edges)).map fun j =>
          NpF.fin (-(min (k j) 0) * data.getD j 0) := by
      apply List.map_congr_left
      intro j hj
      rw [hk j (List.mem_range.1 hj), negPart_fin, npMul_fin]
    unfold signal peak_plus_bkg bkg
    rw [hsig, hpos, hneg, npSum_map_fin_comp, npSum_map_fin_comp, npSum_map_fin_comp,
      npSub_fin, list_map_sum_sub]
    congr 1
    refine congrArg List.sum ?_
    apply List.map_congr_left
    intro j _
    rw [neg_mul, sub_neg_eq_add, ← add_mul, max_add_min, add_zero]

/-- C8 (amended): when every kernel matrix entry is finite, convolving an
all-zero counts vector yields the finite zero in all five output rows. -/
theorem c8_convolve_zero_data (cfg : PSConfig) (edges data : List ℝ) (i : Nat)
    (hfin : ∀ i2 j : ℕ, i2 < nChannels edges → j < nChannels edges →
        ∃ r : ℝ, kmatEntry cfg edges i2 j = .fin r)
    (hdata : ∀ j : ℕ, data.getD j 0 = 0) (hi : i < nChannels edges) :
    peak_plus_bkg cfg edges data i = .fin 0 ∧ bkg cfg edges data i = .fin 0 ∧
      signal cfg edges data i = .fin 0 ∧ noise cfg edges data i = .fin 0 ∧
      snr cfg edges data i = .fin 0 := by
  have hpkb : peak_plus_bkg cfg edges data i = .fin 0 := by
    apply npSum_zero_of_elems
    intro j hj
    obtain ⟨r, hr⟩ := hfin i j hi (List.mem_range.1 hj)
    rw [hr, posPart_fin, hdata j, npMul_fin, mul_zero]
  have hbkg : bkg cfg edges data i = .fin 0 := by
    apply npSum_zero_of_elems
    intro j hj
    obtain ⟨r, hr⟩ := hfin i j hi (List.mem_range.1 hj)
    rw [hr, negPart_fin, hdata j, npMul_fin, mul_zero]
  have hsig : signal cfg edges data i = .fin 0 := by
    apply npSum_zero_of_elems
    intro j hj
    obtain ⟨r, hr⟩ := hfin i j hi (List.mem_range.1 hj)
    rw [hr, hdata j, npMul_fin, mul_zero]
  have hnsq : noiseSq cfg edges data i = .fin 0 := by
    apply npSum_zero_of_elems
    intro j hj
    obtain ⟨r, hr⟩ := hfin i j hi (List.mem_range.1 hj)
    rw [hr, hdata j, npMul_fin, npMul_fin, mul_zero]
  have hnoise : noise cfg edges data i = .fin 0 := by
    unfold noise
    rw [hnsq, npSqrt_fin _ le_rfl, Real.sqrt_zero]
  refine ⟨hpkb, hbkg, hsig, hnoise, ?_⟩
  unfold snr
  rw [if_neg]
  intro hc
  rw [hnoise] at hc
  exact absurd hc (by simp)

/-- C10: the constructor compares the runtime type of the argument with the
Spectrum class itself, so any object whose type tag differs from spectrum,
in particular an instance of a strict subclass, is rejected with the
construction-time exception. -/
theorem c10_exact_type_check (cfg : PSConfig) (spec : SpectrumObj)
    (h : spec.ty ≠ PyType.spectrum) :
    init cfg spec = .error "spectrum must be a Spectrum object" := by
  unfold init
  rw [if_pos h]

end PeakSearch

namespace PeakSearch

theorem clip0_fin (a : ℝ) : clip0 (.fin a) = .fin (max a 0) := rfl

/-- C2 (corrected form): when the negative-part sum of a column is the
finite zero, the per-column rescale divides by zero and the 0 * inf = NaN
rule turns every in-range entry of that column of the returned kernel
matrix into NaN. -/
theorem c2_degenerate_rescale_nan (cfg : PSConfig) (edges : List ℝ) (i j : Nat)
    (hi : i < nChannels edges) (h : negColSum cfg edges j = .fin 0) :
    kmatEntry cfg edges i j = .nan := by
  unfold kmatEntry rescaledNeg
  rw [negPart_zero_of_negColSum_zero cfg edges i j hi h]
  have hdiv : rescaleFactor cfg edges j = .pinf ∨ rescaleFactor cfg edges j = .ninf ∨
      rescaleFactor cfg edges j = .nan := by
    unfold rescaleFactor
    rw [h]
    exact npDiv_by_zero_cases _
  rw [npMul_zero_nonfin _ hdiv, npSub_nan_right]

/-- Inversion of a successful calculate() run: the stored snr is the
clipped snr list over the synthetic edges, and peaks_idx is the find_peaks
output over that stored list. -/
theorem calculate_ok_inv (cfg : PSConfig) (spec : SpectrumObj) (r : CalcResult)
    (h : calculate cfg spec = .ok r) :
    ∃ last : ℝ, spec.channels.getLast? = some last ∧
      r.snr = ((List.range (nChannels (spec.channels ++ [last + 1]))).map fun i =>
        snr cfg (spec.channels ++ [last + 1]) spec.counts i).map clip0 ∧
      r.peaks_idx = find_peaks r.snr cfg.min_snr := by
  unfold calculate at h
  rcases hl : spec.channels.getLast? with _ | last <;> rw [hl] at h
  · exact absurd h (by simp)
  · refine ⟨last, rfl, ?_, ?_⟩
    · injection h with h2
      rw [← h2]
    · injection h with h2
      rw [← h2]

/-- C6 (amended): after calculate() every stored snr value is a finite
nonnegative number, and every reported peak index passes the scipy height
filter min_snr <= clipped_snr[index] (scipy keeps equality, so the bound
is non-strict). -/
theorem c6_snr_clip_and_threshold (cfg : PSConfig) (spec : SpectrumObj) :
    (∀ v ∈ resSnr (calculate cfg spec), ∃ x : ℝ, v = .fin x ∧ 0 ≤ x) ∧
    ∀ p ∈ resPeaks (calculate cfg spec),
      npLe (.fin cfg.min_snr) ((resSnr (calculate cfg spec)).getD p .nan) := by
  rcases hres : calculate cfg spec with msg | c
  · constructor
    · intro v hv
      exact absurd hv (by simp [resSnr])
    · intro p hp
      exact absurd hp (by simp [resPeaks])
  · obtain ⟨last, _, hsnr, hpeaks⟩ := calculate_ok_inv cfg spec c hres
    constructor
    · intro v hv
      have hv2 : v ∈ ((List.range (nChannels (spec.channels ++ [last + 1]))).map fun i =>
          snr cfg (spec.channels ++ [last + 1]) spec.counts i).map clip0 := by
        rw [← hsnr]
        exact hv
      obtain ⟨w, hw, rfl⟩ := List.mem_map.1 hv2
      obtain ⟨i, hi, rfl⟩ := List.mem_map.1 hw
      obtain ⟨x, hx⟩ := snr_isFin cfg (spec.channels ++ [last + 1]) spec.counts i
        (List.mem_range.1 hi)
      exact ⟨max x 0, by rw [hx, clip0_fin], le_max_right x 0⟩
    · intro p hp
      have hp2 : p ∈ find_peaks c.snr cfg.min_snr := by
        rw [← hpeaks]
        exact hp
      have := (List.mem_filter.1 hp2).2
      exact of_decide_eq_true this

/-- C1 (corrected form): on a zero-length spectrum the construction fails,
because calculate() reads channels[-1] of an empty array (an IndexError in
numpy); no outputs are produced. -/
theorem c1_empty_spectrum_errors (cfg : PSConfig) (spec : SpectrumObj)
    (hty : spec.ty = PyType.spectrum) (hch : spec.channels = []) :
    init cfg spec = .error "index -1 is out of bounds for axis 0 with size 0" := by
  unfold init
  rw [if_neg (by simp [hty])]
  unfold calculate
  rw [hch]
  rfl

/-- C7 (corrected form): the constructor validates nothing but the spectrum
type; with a type-correct nonempty spectrum construction succeeds for every
ref_x, including non-positive values (the non-finite fwhm values silently
propagate instead of raising). -/
theorem c7_no_refx_validation (cfg : PSConfig) (spec : SpectrumObj)
    (hty : spec.ty = PyType.spectrum) (hne : spec.channels ≠ [])
    (hrefx : cfg.ref_x ≤ 0) : resOk (init cfg spec) = true := by
  unfold init
  rw [if_neg (by simp [hty])]
  unfold calculate
  rcases hl : spec.channels.getLast? with _ | last
  · exact absurd (List.getLast?_eq_none_iff.1 hl) hne
  · rfl

end PeakSearch

/-! ## Concrete evaluation of the kernel pipeline for cfg1 -/

/-- The workhorse for all sign facts: a * exp p < b * exp q follows from
a / b < q - p + 1 (via exp x >= x + 1). -/
theorem exp_ineq (a b p q : ℝ) (hb : 0 < b) (h : a / b < q - p + 1) :
    a * Real.exp p < b * Real.exp q := by
  have h1 : a / b < Real.exp (q - p) :=
    lt_of_lt_of_le h (by linarith [Real.add_one_le_exp (q - p)])
  have h2 : a / b * Real.exp p < Real.exp (q - p) * Real.exp p :=
    mul_lt_mul_of_pos_right h1 (Real.exp_pos p)
  rw [← Real.exp_add] at h2
  have h3 : q - p + p = q := by ring
  rw [h3] at h2
  calc a * Real.exp p = b * (a / b * Real.exp p) := by field_simp
    _ < b * Real.exp q := (mul_lt_mul_left hb).2 h2

theorem sig2v_pos : 0 < sig2v := by
  unfold sig2v
  positivity

theorem sig3v_pos : 0 < sig3v := by
  unfold sig3v
  positivity

theorem sig2v_sq_lt : sig2v ^ 2 < 3 / 2 := by
  have h2 : Real.sqrt 2 < 3 / 2 := by
    rw [show (3 / 2 : ℝ) = Real.sqrt ((3 / 2) ^ 2) from (Real.sqrt_sq (by norm_num)).symm]
    exact Real.sqrt_lt_sqrt (by norm_num) (by norm_num)
  have h0 : 0 ≤ Real.sqrt 2 := Real.sqrt_nonneg 2
  unfold sig2v
  nlinarith

theorem sig3v_sq_lt : sig3v ^ 2 < 3 / 2 := by
  have h3 : Real.sqrt 3 < 7 / 4 := by
    rw [show (7 / 4 : ℝ) = Real.sqrt ((7 / 4) ^ 2) from (Real.sqrt_sq (by norm_num)).symm]
    exact Real.sqrt_lt_sqrt (by norm_num) (by norm_num)
  have h0 : 0 ≤ Real.sqrt 3 := Real.sqrt_nonneg 3
  unfold sig3v
  nlinarith

theorem q2_neg_bound : -q2 > 1 / 3 := by
  have hpos : (0 : ℝ) < sig2v := sig2v_pos
  have hsq := sig2v_sq_lt
  have hq : -q2 = 1 / sig2v ^ 2 / 2 := by
    unfold q2
    ring
  rw [hq, gt_iff_lt, lt_div_iff (by norm_num), div_mul_eq_mul_div, lt_div_iff (by positivity)]
  nlinarith

theorem q3_neg_bound : -q3 > 1 / 3 := by
  have hpos : (0 : ℝ) < sig3v := sig3v_pos
  have hsq := sig3v_sq_lt
  have hq : -q3 = 1 / sig3v ^ 2 / 2 := by
    unfold q3
    ring
  rw [hq, gt_iff_lt, lt_div_iff (by norm_num), div_mul_eq_mul_div, lt_div_iff (by positivity)]
  nlinarith

namespace PeakSearch

/-- Closed form of sigmaOf on a valid configuration. -/
theorem sigmaOf_fin (cfg : PSConfig) (x : ℝ) (h1 : 0 < cfg.ref_x) (h2 : 0 ≤ x) :
    sigmaOf cfg x = .fin ((cfg.ref_fwhm / Real.sqrt cfg.ref_x * Real.sqrt x +
      cfg.fwhm_at_0) / (471 / 200)) := by
  unfold sigmaOf fwhm
  rw [npSqrt_fin _ h1.le, npDiv_fin _ _ (ne_of_gt (Real.sqrt_pos.2 h1)), npSqrt_fin _ h2,
    npMul_fin, npAdd_fin, npDiv_fin _ _ (by norm_num)]

theorem sigma10 : sigmaOf cfg1 0 = .fin 1 := by
  rw [sigmaOf_fin cfg1 0 (by norm_num [cfg1]) le_rfl]
  norm_num [cfg1, Real.sqrt_zero]

theorem sigma11 : sigmaOf cfg1 1 = .fin (11 / 10) := by
  rw [sigmaOf_fin cfg1 1 (by norm_num [cfg1]) (by norm_num)]
  norm_num [cfg1, Real.sqrt_one]

theorem sigma12 : sigmaOf cfg1 2 = .fin sig2v := by
  rw [sigmaOf_fin cfg1 2 (by norm_num [cfg1]) (by norm_num)]
  show NpF.fin _ = _
  unfold sig2v cfg1
  norm_num [Real.sqrt_one]
  ring

theorem sigma13 : sigmaOf cfg1 3 = .fin sig3v := by
  rw [sigmaOf_fin cfg1 3 (by norm_num [cfg1]) (by norm_num)]
  show NpF.fin _ = _
  unfold sig3v cfg1
  norm_num [Real.sqrt_one]
  ring

end PeakSearch

namespace PeakSearch

theorem gaussian_fin (x mean sv : ℝ) (hs : sv ≠ 0) :
    gaussian x mean (.fin sv) =
      .fin (Real.exp (-((x - mean) / sv * ((x - mean) / sv)) / 2)) := by
  unfold gaussian
  rw [npDiv_fin _ _ hs]
  show npExp (npDiv (npNeg (npMul (NpF.fin ((x - mean) / sv))
    (NpF.fin ((x - mean) / sv)))) (.fin 2)) = _
  rw [npMul_fin, npNeg_fin, npDiv_fin _ _ (by norm_num : (2 : ℝ) ≠ 0), npExp_fin]

theorem gaussian_derivative_fin (x mean sv : ℝ) (hs : sv ≠ 0) :
    gaussian_derivative x mean (.fin sv) = .fin (gdVal x mean sv) := by
  unfold gaussian_derivative gdVal
  rw [gaussian_fin x mean sv hs, npMul_fin, npMul_fin]

theorem kernelEntry_eval (cfg : PSConfig) (x : ℝ) (edges : List ℝ) (i : Nat) (sv : ℝ)
    (hs : sigmaOf cfg x = .fin sv) (hs0 : sv ≠ 0) :
    kernelEntry cfg x edges i =
      .fin (gdVal (edges.getD i 0) x sv - gdVal (edges.getD (i + 1) 0) x sv) := by
  unfold kernelEntry
  rw [hs, gaussian_derivative_fin _ _ _ hs0, gaussian_derivative_fin _ _ _ hs0, npSub_fin]

/-- Evaluation of a raw kernel matrix entry over the edgesW grid. -/
theorem kernRawW (i j : Nat) (x sv : ℝ) (hx : edgesW.getD j 0 = x)
    (hs : sigmaOf cfg1 x = .fin sv) (hs0 : sv ≠ 0) :
    kernRaw cfg1 edgesW i j =
      .fin (gdVal (edgesW.getD i 0) x sv - gdVal (edgesW.getD (i + 1) 0) x sv) := by
  unfold kernRaw
  rw [hx, kernelEntry_eval cfg1 x edgesW i sv hs hs0]

theorem rawW00 : kernRaw cfg1 edgesW 0 0 = .fin (Real.exp (-(1 / 2))) := by
  rw [kernRawW 0 0 0 1 (by norm_num [edgesW]) sigma10 one_ne_zero,
    show edgesW.getD 0 0 = 0 from by norm_num [edgesW],
    show edgesW.getD 1 0 = 1 from by norm_num [edgesW]]
  unfold gdVal
  norm_num

theorem rawW10 : kernRaw cfg1 edgesW 1 0 =
    .fin (2 * Real.exp (-2) - Real.exp (-(1 / 2))) := by
  rw [kernRawW 1 0 0 1 (by norm_num [edgesW]) sigma10 one_ne_zero,
    show edgesW.getD 1 0 = 1 from by norm_num [edgesW],
    show edgesW.getD 2 0 = 2 from by norm_num [edgesW]]
  unfold gdVal
  norm_num
  try ring

theorem rawW20 : kernRaw cfg1 edgesW 2 0 =
    .fin (3 * Real.exp (-(9 / 2)) - 2 * Real.exp (-2)) := by
  rw [kernRawW 2 0 0 1 (by norm_num [edgesW]) sigma10 one_ne_zero,
    show edgesW.getD 2 0 = 2 from by norm_num [edgesW],
    show edgesW.getD 3 0 = 3 from by norm_num [edgesW]]
  unfold gdVal
  norm_num
  try ring

theorem rawW30 : kernRaw cfg1 edgesW 3 0 =
    .fin (4 * Real.exp (-8) - 3 * Real.exp (-(9 / 2))) := by
  rw [kernRawW 3 0 0 1 (by norm_num [edgesW]) sigma10 one_ne_zero,
    show edgesW.getD 3 0 = 3 from by norm_num [edgesW],
    show edgesW.getD 4 0 = 4 from by norm_num [edgesW]]
  unfold gdVal
  norm_num
  try ring

theorem rawW01 : kernRaw cfg1 edgesW 0 1 = .fin (Real.exp (-(50 / 121))) := by
  rw [kernRawW 0 1 1 (11 / 10) (by norm_num [edgesW]) sigma11 (by norm_num),
    show edgesW.getD 0 0 = 0 from by norm_num [edgesW],
    show edgesW.getD 1 0 = 1 from by norm_num [edgesW]]
  unfold gdVal
  norm_num

theorem rawW11 : kernRaw cfg1 edgesW 1 1 = .fin (Real.exp (-(50 / 121))) := by
  rw [kernRawW 1 1 1 (11 / 10) (by norm_num [edgesW]) sigma11 (by norm_num),
    show edgesW.getD 1 0 = 1 from by norm_num [edgesW],
    show edgesW.getD 2 0 = 2 from by norm_num [edgesW]]
  unfold gdVal
  norm_num

theorem rawW21 : kernRaw cfg1 edgesW 2 1 =
    .fin (2 * Real.exp (-(200 / 121)) - Real.exp (-(50 / 121))) := by
  rw [kernRawW 2 1 1 (11 / 10) (by norm_num [edgesW]) sigma11 (by norm_num),
    show edgesW.getD 2 0 = 2 from by norm_num [edgesW],
    show edgesW.getD 3 0 = 3 from by norm_num [edgesW]]
  unfold gdVal
  norm_num
  try ring

theorem rawW31 : kernRaw cfg1 edgesW 3 1 =
    .fin (3 * Real.exp (-(450 / 121)) - 2 * Real.exp (-(200 / 121))) := by
  rw [kernRawW 3 1 1 (11 / 10) (by norm_num [edgesW]) sigma11 (by norm_num),
    show edgesW.getD 3 0 = 3 from by norm_num [edgesW],
    show edgesW.getD 4 0 = 4 from by norm_num [edgesW]]
  unfold gdVal
  norm_num
  try ring

theorem rawW02 : kernRaw cfg1 edgesW 0 2 =
    .fin (2 * Real.exp (4 * q2) - Real.exp q2) := by
  rw [kernRawW 0 2 2 sig2v (by norm_num [edgesW]) sigma12 (ne_of_gt sig2v_pos),
    show edgesW.getD 0 0 = 0 from by norm_num [edgesW],
    show edgesW.getD 1 0 = 1 from by norm_num [edgesW]]
  unfold gdVal
  rw [show -((0 - 2) / sig2v * ((0 - 2) / sig2v)) / 2 = 4 * q2 from by unfold q2; ring,
    show -((1 - 2) / sig2v * ((1 - 2) / sig2v)) / 2 = q2 from by unfold q2; ring]
  norm_num
  try ring

theorem rawW12 : kernRaw cfg1 edgesW 1 2 = .fin (Real.exp q2) := by
  rw [kernRawW 1 2 2 sig2v (by norm_num [edgesW]) sigma12 (ne_of_gt sig2v_pos),
    show edgesW.getD 1 0 = 1 from by norm_num [edgesW],
    show edgesW.getD 2 0 = 2 from by norm_num [edgesW]]
  unfold gdVal
  rw [show -((1 - 2) / sig2v * ((1 - 2) / sig2v)) / 2 = q2 from by unfold q2; ring]
  norm_num

theorem rawW22 : kernRaw cfg1 edgesW 2 2 = .fin (Real.exp q2) := by
  rw [kernRawW 2 2 2 sig2v (by norm_num [edgesW]) sigma12 (ne_of_gt sig2v_pos),
    show edgesW.getD 2 0 = 2 from by norm_num [edgesW],
    show edgesW.getD 3 0 = 3 from by norm_num [edgesW]]
  unfold gdVal
  rw [show -((3 - 2) / sig2v * ((3 - 2) / sig2v)) / 2 = q2 from by unfold q2; ring]
  norm_num

theorem rawW32 : kernRaw cfg1 edgesW 3 2 =
    .fin (2 * Real.exp (4 * q2) - Real.exp q2) := by
  rw [kernRawW 3 2 2 sig2v (by norm_num [edgesW]) sigma12 (ne_of_gt sig2v_pos),
    show edgesW.getD 3 0 = 3 from by norm_num [edgesW],
    show edgesW.getD 4 0 = 4 from by norm_num [edgesW]]
  unfold gdVal
  rw [show -((3 - 2) / sig2v * ((3 - 2) / sig2v)) / 2 = q2 from by unfold q2; ring,
    show -((4 - 2) / sig2v * ((4 - 2) / sig2v)) / 2 = 4 * q2 from by unfold q2; ring]
  norm_num
  try ring

theorem rawW03 : kernRaw cfg1 edgesW 0 3 =
    .fin (3 * Real.exp (9 * q3) - 2 * Real.exp (4 * q3)) := by
  rw [kernRawW 0 3 3 sig3v (by norm_num [edgesW]) sigma13 (ne_of_gt sig3v_pos),
    show edgesW.getD 0 0 = 0 from by norm_num [edgesW],
    show edgesW.getD 1 0 = 1 from by norm_num [edgesW]]
  unfold gdVal
  rw [show -((0 - 3) / sig3v * ((0 - 3) / sig3v)) / 2 = 9 * q3 from by unfold q3; ring,
    show -((1 - 3) / sig3v * ((1 - 3) / sig3v)) / 2 = 4 * q3 from by unfold q3; ring]
  norm_num
  try ring

theorem rawW13 : kernRaw cfg1 edgesW 1 3 =
    .fin (2 * Real.exp (4 * q3) - Real.exp q3) := by
  rw [kernRawW 1 3 3 sig3v (by norm_num [edgesW]) sigma13 (ne_of_gt sig3v_pos),
    show edgesW.getD 1 0 = 1 from by norm_num [edgesW],
    show edgesW.getD 2 0 = 2 from by norm_num [edgesW]]
  unfold gdVal
  rw [show -((1 - 3) / sig3v * ((1 - 3) / sig3v)) / 2 = 4 * q3 from by unfold q3; ring,
    show -((2 - 3) / sig3v * ((2 - 3) / sig3v)) / 2 = q3 from by unfold q3; ring]
  norm_num
  try ring

theorem rawW23 : kernRaw cfg1 edgesW 2 3 = .fin (Real.exp q3) := by
  rw [kernRawW 2 3 3 sig3v (by norm_num [edgesW]) sigma13 (ne_of_gt sig3v_pos),
    show edgesW.getD 2 0 = 2 from by norm_num [edgesW],
    show edgesW.getD 3 0 = 3 from by norm_num [edgesW]]
  unfold gdVal
  rw [show -((2 - 3) / sig3v * ((2 - 3) / sig3v)) / 2 = q3 from by unfold q3; ring]
  norm_num

theorem rawW33 : kernRaw cfg1 edgesW 3 3 = .fin (Real.exp q3) := by
  rw [kernRawW 3 3 3 sig3v (by norm_num [edgesW]) sigma13 (ne_of_gt sig3v_pos),
    show edgesW.getD 3 0 = 3 from by norm_num [edgesW],
    show edgesW.getD 4 0 = 4 from by norm_num [edgesW]]
  unfold gdVal
  rw [show -((4 - 3) / sig3v * ((4 - 3) / sig3v)) / 2 = q3 from by unfold q3; ring]
  norm_num

theorem raw200 : kernRaw cfg1 edges2 0 0 = .fin (Real.exp (-(1 / 2))) := by
  unfold kernRaw
  rw [show edges2.getD 0 0 = 0 from by norm_num [edges2],
    kernelEntry_eval cfg1 0 edges2 0 1 sigma10 one_ne_zero,
    show edges2.getD 0 0 = 0 from by norm_num [edges2],
    show edges2.getD 1 0 = 1 from by norm_num [edges2]]
  unfold gdVal
  norm_num

end PeakSearch

theorem sgn10 : 2 * Real.exp (-2) - Real.exp (-(1 / 2)) ≤ 0 := by
  have h := exp_ineq 2 1 (-2) (-(1 / 2)) one_pos (by norm_num)
  linarith

theorem sgn20 : 3 * Real.exp (-(9 / 2)) - 2 * Real.exp (-2) ≤ 0 := by
  have h := exp_ineq 3 2 (-(9 / 2)) (-2) (by norm_num) (by norm_num)
  linarith

theorem sgn30 : 4 * Real.exp (-8) - 3 * Real.exp (-(9 / 2)) ≤ 0 := by
  have h := exp_ineq 4 3 (-8) (-(9 / 2)) (by norm_num) (by norm_num)
  linarith

theorem sgn21 : 2 * Real.exp (-(200 / 121)) - Real.exp (-(50 / 121)) ≤ 0 := by
  have h := exp_ineq 2 1 (-(200 / 121)) (-(50 / 121)) one_pos (by norm_num)
  linarith

theorem sgn31 : 3 * Real.exp (-(450 / 121)) - 2 * Real.exp (-(200 / 121)) ≤ 0 := by
  have h := exp_ineq 3 2 (-(450 / 121)) (-(200 / 121)) (by norm_num) (by norm_num)
  linarith

theorem sgn02 : 2 * Real.exp (4 * q2) - Real.exp q2 ≤ 0 := by
  have hb := q2_neg_bound
  have h := exp_ineq 2 1 (4 * q2) q2 one_pos (by linarith)
  linarith

theorem sgn03 : 3 * Real.exp (9 * q3) - 2 * Real.exp (4 * q3) ≤ 0 := by
  have hb := q3_neg_bound
  have h := exp_ineq 3 2 (9 * q3) (4 * q3) (by norm_num) (by linarith)
  linarith

theorem sgn13 : 2 * Real.exp (4 * q3) - Real.exp q3 ≤ 0 := by
  have hb := q3_neg_bound
  have h := exp_ineq 2 1 (4 * q3) q3 one_pos (by linarith)
  linarith

theorem colB2_pos : 0 < colB2 := by
  have hb := q2_neg_bound
  have h := exp_ineq 2 1 (4 * q2) q2 one_pos (by linarith)
  unfold colB2
  linarith

theorem negW0_pos : 0 < Real.exp (-(1 / 2)) - 4 * Real.exp (-8) := by
  have h := exp_ineq 4 1 (-8) (-(1 / 2)) one_pos (by norm_num)
  linarith

theorem negW1_pos : 0 < Real.exp (-(50 / 121)) - 3 * Real.exp (-(450 / 121)) := by
  have h := exp_ineq 3 1 (-(450 / 121)) (-(50 / 121)) one_pos (by norm_num)
  linarith

theorem negW3_pos : 0 < Real.exp q3 - 3 * Real.exp (9 * q3) := by
  have hb := q3_neg_bound
  have h := exp_ineq 3 1 (9 * q3) q3 one_pos (by linarith)
  linarith

namespace PeakSearch

theorem negColW0 : negColSum cfg1 edgesW 0 =
    .fin (Real.exp (-(1 / 2)) - 4 * Real.exp (-8)) := by
  unfold negColSum
  rw [show nChannels edgesW = 4 from rfl, show List.range 4 = [0, 1, 2, 3] from rfl]
  rw [List.map_cons, List.map_cons, List.map_cons, List.map_cons, List.map_nil]
  rw [rawW00, rawW10, rawW20, rawW30,
    negPart_fin_of_nonneg _ (Real.exp_pos _).le,
    negPart_fin_of_nonpos _ sgn10, negPart_fin_of_nonpos _ sgn20,
    negPart_fin_of_nonpos _ sgn30]
  rw [npSum_cons, npSum_cons, npSum_cons, npSum_cons, npSum_nil,
    npAdd_fin, npAdd_fin, npAdd_fin, npAdd_fin]
  congr 1
  ring

theorem negColW1 : negColSum cfg1 edgesW 1 =
    .fin (Real.exp (-(50 / 121)) - 3 * Real.exp (-(450 / 121))) := by
  unfold negColSum
  rw [show nChannels edgesW = 4 from rfl, show List.range 4 = [0, 1, 2, 3] from rfl]
  rw [List.map_cons, List.map_cons, List.map_cons, List.map_cons, List.map_nil]
  rw [rawW01, rawW11, rawW21, rawW31,
    negPart_fin_of_nonneg _ (Real.exp_pos _).le,
    negPart_fin_of_nonpos _ sgn21, negPart_fin_of_nonpos _ sgn31]
  rw [npSum_cons, npSum_cons, npSum_cons, npSum_cons, npSum_nil,
    npAdd_fin, npAdd_fin, npAdd_fin, npAdd_fin]
  congr 1
  ring

theorem negColW2 : negColSum cfg1 edgesW 2 = .fin (2 * colB2) := by
  unfold negColSum
  rw [show nChannels edgesW = 4 from rfl, show List.range 4 = [0, 1, 2, 3] from rfl]
  rw [List.map_cons, List.map_cons, List.map_cons, List.map_cons, List.map_nil]
  rw [rawW02, rawW12, rawW22, rawW32,
    negPart_fin_of_nonpos _ sgn02, negPart_fin_of_nonneg _ (Real.exp_pos _).le]
  rw [npSum_cons, npSum_cons, npSum_cons, npSum_cons, npSum_nil,
    npAdd_fin, npAdd_fin, npAdd_fin, npAdd_fin]
  unfold colB2
  congr 1
  ring

theorem negColW3 : negColSum cfg1 edgesW 3 =
    .fin (Real.exp q3 - 3 * Real.exp (9 * q3)) := by
  unfold negColSum
  rw [show nChannels edgesW = 4 from rfl, show List.range 4 = [0, 1, 2, 3] from rfl]
  rw [List.map_cons, List.map_cons, List.map_cons, List.map_cons, List.map_nil]
  rw [rawW03, rawW13, rawW23, rawW33,
    negPart_fin_of_nonpos _ sgn03, negPart_fin_of_nonpos _ sgn13,
    negPart_fin_of_nonneg _ (Real.exp_pos _).le]
  rw [npSum_cons, npSum_cons, npSum_cons, npSum_cons, npSum_nil,
    npAdd_fin, npAdd_fin, npAdd_fin, npAdd_fin]
  congr 1
  ring

theorem posColW2 : posColSum cfg1 edgesW 2 = .fin (2 * Real.exp q2) := by
  unfold posColSum
  rw [show nChannels edgesW = 4 from rfl, show List.range 4 = [0, 1, 2, 3] from rfl]
  rw [List.map_cons, List.map_cons, List.map_cons, List.map_cons, List.map_nil]
  rw [rawW02, rawW12, rawW22, rawW32,
    posPart_fin_of_nonpos _ sgn02, posPart_fin_of_nonneg _ (Real.exp_pos _).le]
  rw [npSum_cons, npSum_cons, npSum_cons, npSum_cons, npSum_nil,
    npAdd_fin, npAdd_fin, npAdd_fin, npAdd_fin]
  congr 1
  ring

theorem negCol20 : negColSum cfg1 edges2 0 = .fin 0 := by
  unfold negColSum
  rw [show nChannels edges2 = 1 from rfl, show List.range 1 = [0] from rfl]
  rw [List.map_cons, List.map_nil]
  rw [raw200, negPart_fin_of_nonneg _ (Real.exp_pos _).le]
  rw [npSum_cons, npSum_nil, npAdd_fin]
  norm_num

theorem posCol20 : posColSum cfg1 edges2 0 = .fin (Real.exp (-(1 / 2))) := by
  unfold posColSum
  rw [show nChannels edges2 = 1 from rfl, show List.range 1 = [0] from rfl]
  rw [List.map_cons, List.map_nil]
  rw [raw200, posPart_fin_of_nonneg _ (Real.exp_pos _).le]
  rw [npSum_cons, npSum_nil, npAdd_fin]
  norm_num

end PeakSearch

namespace PeakSearch

theorem rescaleW2 : rescaleFactor cfg1 edgesW 2 = .fin rho2 := by
  unfold rescaleFactor rho2
  rw [posColW2, negColW2, npDiv_fin _ _ (ne_of_gt (by have := colB2_pos; linarith))]

theorem rho2_pos : 0 < rho2 := by
  unfold rho2
  have h1 : 0 < 2 * Real.exp q2 := by positivity
  have h2 : 0 < 2 * colB2 := by have := colB2_pos; linarith
  positivity

theorem kW02 : kmatEntry cfg1 edgesW 0 2 = .fin (-(colB2 * rho2)) := by
  unfold kmatEntry rescaledNeg
  rw [rawW02, posPart_fin_of_nonpos _ sgn02, negPart_fin_of_nonpos _ sgn02, rescaleW2,
    npMul_fin, npSub_fin]
  unfold colB2
  congr 1
  ring

theorem kW12 : kmatEntry cfg1 edgesW 1 2 = .fin (Real.exp q2) := by
  unfold kmatEntry rescaledNeg
  rw [rawW12, posPart_fin_of_nonneg _ (Real.exp_pos _).le,
    negPart_fin_of_nonneg _ (Real.exp_pos _).le, rescaleW2, npMul_fin, npSub_fin]
  norm_num

theorem kW22 : kmatEntry cfg1 edgesW 2 2 = .fin (Real.exp q2) := by
  unfold kmatEntry rescaledNeg
  rw [rawW22, posPart_fin_of_nonneg _ (Real.exp_pos _).le,
    negPart_fin_of_nonneg _ (Real.exp_pos _).le, rescaleW2, npMul_fin, npSub_fin]
  norm_num

theorem kW32 : kmatEntry cfg1 edgesW 3 2 = .fin (-(colB2 * rho2)) := by
  unfold kmatEntry rescaledNeg
  rw [rawW32, posPart_fin_of_nonpos _ sgn02, negPart_fin_of_nonpos _ sgn02, rescaleW2,
    npMul_fin, npSub_fin]
  unfold colB2
  congr 1
  ring

theorem kWfin0 (i : Nat) (hi : i < 4) : ∃ r : ℝ, kmatEntry cfg1 edgesW i 0 = .fin r :=
  kmatEntry_fin_of_negColSum cfg1 edgesW i 0
    (by rw [show nChannels edgesW = 4 from rfl]; exact hi) _ negColW0 (ne_of_gt negW0_pos)

theorem kWfin1 (i : Nat) (hi : i < 4) : ∃ r : ℝ, kmatEntry cfg1 edgesW i 1 = .fin r :=
  kmatEntry_fin_of_negColSum cfg1 edgesW i 1
    (by rw [show nChannels edgesW = 4 from rfl]; exact hi) _ negColW1 (ne_of_gt negW1_pos)

theorem kWfin3 (i : Nat) (hi : i < 4) : ∃ r : ℝ, kmatEntry cfg1 edgesW i 3 = .fin r :=
  kmatEntry_fin_of_negColSum cfg1 edgesW i 3
    (by rw [show nChannels edgesW = 4 from rfl]; exact hi) _ negColW3 (ne_of_gt negW3_pos)

theorem kWfin2 (i : Nat) (hi : i < 4) : ∃ r : ℝ, kmatEntry cfg1 edgesW i 2 = .fin r := by
  have h2 : negColSum cfg1 edgesW 2 = .fin (2 * colB2) := negColW2
  exact kmatEntry_fin_of_negColSum cfg1 edgesW i 2
    (by rw [show nChannels edgesW = 4 from rfl]; exact hi) _ h2
    (ne_of_gt (by have := colB2_pos; linarith))

theorem sigRow0 : signal cfg1 edgesW spec1.counts 0 = .fin (-(colB2 * rho2)) := by
  obtain ⟨r0, h0⟩ := kWfin0 0 (by norm_num)
  obtain ⟨r1, h1⟩ := kWfin1 0 (by norm_num)
  obtain ⟨r3, h3⟩ := kWfin3 0 (by norm_num)
  unfold signal
  rw [show nChannels edgesW = 4 from rfl, show List.range 4 = [0, 1, 2, 3] from rfl,
    List.map_cons, List.map_cons, List.map_cons, List.map_cons, List.map_nil,
    h0, h1, kW02, h3,
    show spec1.counts.getD 0 0 = 0 from rfl, show spec1.counts.getD 1 0 = 0 from rfl,
    show spec1.counts.getD 2 0 = 1 from rfl, show spec1.counts.getD 3 0 = 0 from rfl,
    npMul_fin, npMul_fin, npMul_fin, npMul_fin,
    npSum_cons, npSum_cons, npSum_cons, npSum_cons, npSum_nil,
    npAdd_fin, npAdd_fin, npAdd_fin, npAdd_fin]
  congr 1
  ring

theorem sigRow1 : signal cfg1 edgesW spec1.counts 1 = .fin (Real.exp q2) := by
  obtain ⟨r0, h0⟩ := kWfin0 1 (by norm_num)
  obtain ⟨r1, h1⟩ := kWfin1 1 (by norm_num)
  obtain ⟨r3, h3⟩ := kWfin3 1 (by norm_num)
  unfold signal
  rw [show nChannels edgesW = 4 from rfl, show List.range 4 = [0, 1, 2, 3] from rfl,
    List.map_cons, List.map_cons, List.map_cons, List.map_cons, List.map_nil,
    h0, h1, kW12, h3,
    show spec1.counts.getD 0 0 = 0 from rfl, show spec1.counts.getD 1 0 = 0 from rfl,
    show spec1.counts.getD 2 0 = 1 from rfl, show spec1.counts.getD 3 0 = 0 from rfl,
    npMul_fin, npMul_fin, npMul_fin, npMul_fin,
    npSum_cons, npSum_cons, npSum_cons, npSum_cons, npSum_nil,
    npAdd_fin, npAdd_fin, npAdd_fin, npAdd_fin]
  congr 1
  ring

theorem sigRow2 : signal cfg1 edgesW spec1.counts 2 = .fin (Real.exp q2) := by
  obtain ⟨r0, h0⟩ := kWfin0 2 (by norm_num)
  obtain ⟨r1, h1⟩ := kWfin1 2 (by norm_num)
  obtain ⟨r3, h3⟩ := kWfin3 2 (by norm_num)
  unfold signal
  rw [show nChannels edgesW = 4 from rfl, show List.range 4 = [0, 1, 2, 3] from rfl,
    List.map_cons, List.map_cons, List.map_cons, List.map_cons, List.map_nil,
    h0, h1, kW22, h3,
    show spec1.counts.getD 0 0 = 0 from rfl, show spec1.counts.getD 1 0 = 0 from rfl,
    show spec1.counts.getD 2 0 = 1 from rfl, show spec1.counts.getD 3 0 = 0 from rfl,
    npMul_fin, npMul_fin, npMul_fin, npMul_fin,
    npSum_cons, npSum_cons, npSum_cons, npSum_cons, npSum_nil,
    npAdd_fin, npAdd_fin, npAdd_fin, npAdd_fin]
  congr 1
  ring

theorem sigRow3 : signal cfg1 edgesW spec1.counts 3 = .fin (-(colB2 * rho2)) := by
  obtain ⟨r0, h0⟩ := kWfin0 3 (by norm_num)
  obtain ⟨r1, h1⟩ := kWfin1 3 (by norm_num)
  obtain ⟨r3, h3⟩ := kWfin3 3 (by norm_num)
  unfold signal
  rw [show nChannels edgesW = 4 from rfl, show List.range 4 = [0, 1, 2, 3] from rfl,
    List.map_cons, List.map_cons, List.map_cons, List.map_cons, List.map_nil,
    h0, h1, kW32, h3,
    show spec1.counts.getD 0 0 = 0 from rfl, show spec1.counts.getD 1 0 = 0 from rfl,
    show spec1.counts.getD 2 0 = 1 from rfl, show spec1.counts.getD 3 0 = 0 from rfl,
    npMul_fin, npMul_fin, npMul_fin, npMul_fin,
    npSum_cons, npSum_cons, npSum_cons, npSum_cons, npSum_nil,
    npAdd_fin, npAdd_fin, npAdd_fin, npAdd_fin]
  congr 1
  ring

end PeakSearch

namespace PeakSearch

theorem noiseSqRow0 : noiseSq cfg1 edgesW spec1.counts 0 =
    .fin (colB2 * rho2 * (colB2 * rho2)) := by
  obtain ⟨r0, h0⟩ := kWfin0 0 (by norm_num)
  obtain ⟨r1, h1⟩ := kWfin1 0 (by norm_num)
  obtain ⟨r3, h3⟩ := kWfin3 0 (by norm_num)
  unfold noiseSq
  rw [show nChannels edgesW = 4 from rfl, show List.range 4 = [0, 1, 2, 3] from rfl,
    List.map_cons, List.map_cons, List.map_cons, List.map_cons, List.map_nil,
    h0, h1, kW02, h3,
    show spec1.counts.getD 0 0 = 0 from rfl, show spec1.counts.getD 1 0 = 0 from rfl,
    show spec1.counts.getD 2 0 = 1 from rfl, show spec1.counts.getD 3 0 = 0 from rfl,
    npMul_fin, npMul_fin, npMul_fin, npMul_fin, npMul_fin, npMul_fin, npMul_fin, npMul_fin,
    npSum_cons, npSum_cons, npSum_cons, npSum_cons, npSum_nil,
    npAdd_fin, npAdd_fin, npAdd_fin, npAdd_fin]
  congr 1
  ring

theorem noiseSqRow1 : noiseSq cfg1 edgesW spec1.counts 1 =
    .fin (Real.exp q2 * Real.exp q2) := by
  obtain ⟨r0, h0⟩ := kWfin0 1 (by norm_num)
  obtain ⟨r1, h1⟩ := kWfin1 1 (by norm_num)
  obtain ⟨r3, h3⟩ := kWfin3 1 (by norm_num)
  unfold noiseSq
  rw [show nChannels edgesW = 4 from rfl, show List.range 4 = [0, 1, 2, 3] from rfl,
    List.map_cons, List.map_cons, List.map_cons, List.map_cons, List.map_nil,
    h0, h1, kW12, h3,
    show spec1.counts.getD 0 0 = 0 from rfl, show spec1.counts.getD 1 0 = 0 from rfl,
    show spec1.counts.getD 2 0 = 1 from rfl, show spec1.counts.getD 3 0 = 0 from rfl,
    npMul_fin, npMul_fin, npMul_fin, npMul_fin, npMul_fin, npMul_fin, npMul_fin, npMul_fin,
    npSum_cons, npSum_cons, npSum_cons, npSum_cons, npSum_nil,
    npAdd_fin, npAdd_fin, npAdd_fin, npAdd_fin]
  congr 1
  ring

theorem noiseSqRow2 : noiseSq cfg1 edgesW spec1.counts 2 =
    .fin (Real.exp q2 * Real.exp q2) := by
  obtain ⟨r0, h0⟩ := kWfin0 2 (by norm_num)
  obtain ⟨r1, h1⟩ := kWfin1 2 (by norm_num)
  obtain ⟨r3, h3⟩ := kWfin3 2 (by norm_num)
  unfold noiseSq
  rw [show nChannels edgesW = 4 from rfl, show List.range 4 = [0, 1, 2, 3] from rfl,
    List.map_cons, List.map_cons, List.map_cons, List.map_cons, List.map_nil,
    h0, h1, kW22, h3,
    show spec1.counts.getD 0 0 = 0 from rfl, show spec1.counts.getD 1 0 = 0 from rfl,
    show spec1.counts.getD 2 0 = 1 from rfl, show spec1.counts.getD 3 0 = 0 from rfl,
    npMul_fin, npMul_fin, npMul_fin, npMul_fin, npMul_fin, npMul_fin, npMul_fin, npMul_fin,
    npSum_cons, npSum_cons, npSum_cons, npSum_cons, npSum_nil,
    npAdd_fin, npAdd_fin, npAdd_fin, npAdd_fin]
  congr 1
  ring

theorem noiseSqRow3 : noiseSq cfg1 edgesW spec1.counts 3 =
    .fin (colB2 * rho2 * (colB2 * rho2)) := by
  obtain ⟨r0, h0⟩ := kWfin0 3 (by norm_num)
  obtain ⟨r1, h1⟩ := kWfin1 3 (by norm_num)
  obtain ⟨r3, h3⟩ := kWfin3 3 (by norm_num)
  unfold noiseSq
  rw [show nChannels edgesW = 4 from rfl, show List.range 4 = [0, 1, 2, 3] from rfl,
    List.map_cons, List.map_cons, List.map_cons, List.map_cons, List.map_nil,
    h0, h1, kW32, h3,
    show spec1.counts.getD 0 0 = 0 from rfl, show spec1.counts.getD 1 0 = 0 from rfl,
    show spec1.counts.getD 2 0 = 1 from rfl, show spec1.counts.getD 3 0 = 0 from rfl,
    npMul_fin, npMul_fin, npMul_fin, npMul_fin, npMul_fin, npMul_fin, npMul_fin, npMul_fin,
    npSum_cons, npSum_cons, npSum_cons, npSum_cons, npSum_nil,
    npAdd_fin, npAdd_fin, npAdd_fin, npAdd_fin]
  congr 1
  ring

theorem noiseRow0 : noise cfg1 edgesW spec1.counts 0 = .fin (colB2 * rho2) := by
  have h : 0 < colB2 * rho2 := mul_pos colB2_pos rho2_pos
  unfold noise
  rw [noiseSqRow0, npSqrt_fin _ (mul_nonneg h.le h.le)]
  congr 1
  exact Real.sqrt_mul_self h.le

theorem noiseRow1 : noise cfg1 edgesW spec1.counts 1 = .fin (Real.exp q2) := by
  unfold noise
  rw [noiseSqRow1, npSqrt_fin _ (mul_nonneg (Real.exp_pos _).le (Real.exp_pos _).le)]
  congr 1
  exact Real.sqrt_mul_self (Real.exp_pos _).le

theorem noiseRow2 : noise cfg1 edgesW spec1.counts 2 = .fin (Real.exp q2) := by
  unfold noise
  rw [noiseSqRow2, npSqrt_fin _ (mul_nonneg (Real.exp_pos _).le (Real.exp_pos _).le)]
  congr 1
  exact Real.sqrt_mul_self (Real.exp_pos _).le

theorem noiseRow3 : noise cfg1 edgesW spec1.counts 3 = .fin (colB2 * rho2) := by
  have h : 0 < colB2 * rho2 := mul_pos colB2_pos rho2_pos
  unfold noise
  rw [noiseSqRow3, npSqrt_fin _ (mul_nonneg h.le h.le)]
  congr 1
  exact Real.sqrt_mul_self h.le

theorem snrRow0 : snr cfg1 edgesW spec1.counts 0 = .fin (-1) := by
  have h : 0 < colB2 * rho2 := mul_pos colB2_pos rho2_pos
  unfold snr
  rw [if_pos (show npLt (.fin 0) (noise cfg1 edgesW spec1.counts 0) from by
    rw [noiseRow0]; exact h)]
  rw [sigRow0, noiseRow0, npDiv_fin _ _ (ne_of_gt h)]
  rw [neg_div, div_self (ne_of_gt h)]

theorem snrRow1 : snr cfg1 edgesW spec1.counts 1 = .fin 1 := by
  unfold snr
  rw [if_pos (show npLt (.fin 0) (noise cfg1 edgesW spec1.counts 1) from by
    rw [noiseRow1]; exact Real.exp_pos _)]
  rw [sigRow1, noiseRow1, npDiv_fin _ _ (ne_of_gt (Real.exp_pos _))]
  rw [div_self (ne_of_gt (Real.exp_pos _))]

theorem snrRow2 : snr cfg1 edgesW spec1.counts 2 = .fin 1 := by
  unfold snr
  rw [if_pos (show npLt (.fin 0) (noise cfg1 edgesW spec1.counts 2) from by
    rw [noiseRow2]; exact Real.exp_pos _)]
  rw [sigRow2, noiseRow2, npDiv_fin _ _ (ne_of_gt (Real.exp_pos _))]
  rw [div_self (ne_of_gt (Real.exp_pos _))]

theorem snrRow3 : snr cfg1 edgesW spec1.counts 3 = .fin (-1) := by
  have h : 0 < colB2 * rho2 := mul_pos colB2_pos rho2_pos
  unfold snr
  rw [if_pos (show npLt (.fin 0) (noise cfg1 edgesW spec1.counts 3) from by
    rw [noiseRow3]; exact h)]
  rw [sigRow3, noiseRow3, npDiv_fin _ _ (ne_of_gt h)]
  rw [neg_div, div_self (ne_of_gt h)]

end PeakSearch

theorem plateau_2 : plateauEnd snrClip1 3 (.fin 1) 2 = 3 := by
  rw [plateauEnd.eq_def]
  rw [dif_pos (show 2 < 3 ∧ npEqP (snrClip1.getD 2 .nan) (.fin 1) from
    ⟨by norm_num, show (1 : ℝ) = 1 from rfl⟩)]
  rw [plateauEnd.eq_def]
  rw [dif_neg (show ¬(2 + 1 < 3 ∧ npEqP (snrClip1.getD (2 + 1) .nan) (.fin 1)) from by
    rintro ⟨h, -⟩
    omega)]

theorem localMaxima_eval : localMaxima snrClip1 = [1] := by
  unfold localMaxima
  rw [show snrClip1.length - 1 = 3 from rfl]
  rw [localMaximaAux.eq_def]
  rw [dif_pos (show 1 < 3 by norm_num)]
  rw [show snrClip1.getD (1 - 1) .nan = .fin 0 from rfl,
    show snrClip1.getD 1 .nan = .fin 1 from rfl]
  rw [if_pos (show npLt (NpF.fin 0) (.fin 1) from by norm_num [npLt])]
  rw [show (1 : Nat) + 1 = 2 from rfl, plateau_2]
  rw [show snrClip1.getD 3 .nan = .fin 0 from rfl]
  rw [if_pos (show npLt (NpF.fin 0) (.fin 1) from by norm_num [npLt])]
  rw [show (1 + (3 - 1)) / 2 = 1 from rfl, show max (3 + 1) (1 + 1) = 4 from rfl]
  rw [localMaximaAux.eq_def]
  rw [dif_neg (show ¬4 < 3 by omega)]

theorem find_peaks_eval : find_peaks snrClip1 1 = [1] := by
  unfold find_peaks
  rw [localMaxima_eval, List.filter_cons,
    if_pos (decide_eq_true (show npLe (.fin 1) (snrClip1.getD 1 .nan) from
      le_refl (1 : ℝ)))]
  rfl

namespace PeakSearch

theorem calc1_edges : spec1.channels ++ [(3 : ℝ) + 1] = edgesW := by
  norm_num [spec1, edgesW]

theorem calc1_ok : ∃ c : CalcResult, calculate cfg1 spec1 = .ok c := by
  rcases h : calculate cfg1 spec1 with msg | c
  · exfalso
    unfold calculate at h
    rw [show spec1.channels.getLast? = some 3 from rfl] at h
    exact absurd h (by simp)
  · exact ⟨c, rfl⟩

theorem calc1_snr : resSnr (calculate cfg1 spec1) = snrClip1 := by
  obtain ⟨c, hc⟩ := calc1_ok
  obtain ⟨last, hlast, hsnr, hpeaks⟩ := calculate_ok_inv cfg1 spec1 c hc
  have hl3 : last = 3 := by
    rw [show spec1.channels.getLast? = some 3 from rfl] at hlast
    injection hlast with h2
    exact h2.symm
  subst hl3
  rw [hc]
  show c.snr = snrClip1
  rw [hsnr, calc1_edges,
    show nChannels edgesW = 4 from rfl, show List.range 4 = [0, 1, 2, 3] from rfl]
  simp only [List.map_cons, List.map_nil]
  rw [snrRow0, snrRow1, snrRow2, snrRow3, clip0_fin, clip0_fin]
  unfold snrClip1
  norm_num [max_def]

theorem calc1_peaks : resPeaks (calculate cfg1 spec1) = [1] := by
  obtain ⟨c, hc⟩ := calc1_ok
  obtain ⟨last, hlast, hsnr, hpeaks⟩ := calculate_ok_inv cfg1 spec1 c hc
  have hs : c.snr = snrClip1 := by
    have h2 := calc1_snr
    rw [hc] at h2
    exact h2
  rw [hc]
  show c.peaks_idx = [1]
  rw [hpeaks, hs, show cfg1.min_snr = (1 : ℝ) from rfl, find_peaks_eval]

end PeakSearch

/-! ## Counterexamples and witnesses for the claims -/

namespace PeakSearch

/-- Shared fact: the single kernel matrix entry of the one-channel grid is
NaN under cfg1 (the column has no negative lobe, so the rescale divides by
zero and 0 * inf = NaN). -/
theorem kmat200_nan : kmatEntry cfg1 edges2 0 0 = .nan := by
  unfold kmatEntry rescaledNeg
  rw [raw200, negPart_fin_of_nonneg _ (Real.exp_pos _).le]
  have hfac : rescaleFactor cfg1 edges2 0 = .pinf := by
    unfold rescaleFactor
    rw [posCol20, negCol20]
    simp [npDiv, Real.exp_pos]
  rw [hfac, show npMul (NpF.fin 0) NpF.pinf = NpF.nan from by norm_num [npMul],
    npSub_nan_right]

end PeakSearch

/-- C1 counterexample: on the zero-length spectrum, construction raises
instead of returning empty outputs. -/
theorem c1_cex : PeakSearch.init cfg1 specEmpty =
    .error "index -1 is out of bounds for axis 0 with size 0" := rfl

/-- C1 witness: the corrected statement applied to the concrete empty
spectrum. -/
theorem c1_witness : PeakSearch.init cfg1 specEmpty =
    .error "index -1 is out of bounds for axis 0 with size 0" :=
  PeakSearch.c1_empty_spectrum_errors cfg1 specEmpty rfl rfl

/-- C2 counterexample: a column with zero negative-part sum whose returned
kernel matrix entry is NaN (not a defined finite value). -/
theorem c2_cex : PeakSearch.negColSum cfg1 edges2 0 = .fin 0 ∧
    PeakSearch.kmatEntry cfg1 edges2 0 0 = .nan :=
  ⟨PeakSearch.negCol20, PeakSearch.kmat200_nan⟩

/-- C2 witness: the corrected statement applied to the concrete degenerate
column. -/
theorem c2_witness : PeakSearch.kmatEntry cfg1 edges2 0 0 = .nan :=
  PeakSearch.c2_degenerate_rescale_nan cfg1 edges2 0 0
    (by norm_num [PeakSearch.nChannels, edges2]) PeakSearch.negCol20

/-- C3 witness: the fwhm formula at the concrete configuration cfg1 and
x = 9. -/
theorem c3_witness : PeakSearch.fwhm cfg1 9 =
    .fin (cfg1.ref_fwhm / Real.sqrt cfg1.ref_x * Real.sqrt 9 + cfg1.fwhm_at_0) ∧
    PeakSearch.fwhm cfg1 0 = .fin cfg1.fwhm_at_0 :=
  PeakSearch.c3_fwhm_formula cfg1 9 (by norm_num [cfg1]) (by norm_num)

/-- C4 witness: the zero-sum property of column 0 of the kernel matrix over
edgesW. -/
theorem c4_witness :
    npSum ((List.range (PeakSearch.nChannels edgesW)).map fun i =>
      PeakSearch.rescaledNeg cfg1 edgesW i 0) = PeakSearch.posColSum cfg1 edgesW 0 :=
  PeakSearch.c4_zero_sum_columns cfg1 edgesW 0
    (by norm_num [PeakSearch.nChannels, edgesW]) _ PeakSearch.negColW0
    (ne_of_gt negW0_pos)

/-- C5 witness: the snr convention at row 1 of the concrete convolution. -/
theorem c5_witness :
    (∀ v : ℝ, PeakSearch.noise cfg1 edgesW spec1.counts 1 = .fin v →
        ((0 < v → PeakSearch.snr cfg1 edgesW spec1.counts 1 =
            npDiv (PeakSearch.signal cfg1 edgesW spec1.counts 1)
              (PeakSearch.noise cfg1 edgesW spec1.counts 1)) ∧
         (v = 0 → PeakSearch.snr cfg1 edgesW spec1.counts 1 = .fin 0))) ∧
    ∃ r : ℝ, PeakSearch.snr cfg1 edgesW spec1.counts 1 = .fin r :=
  PeakSearch.c5_snr_zero_guard cfg1 edgesW spec1.counts 1
    (by norm_num [PeakSearch.nChannels, edgesW])

/-- C6 counterexample: calculate() reports peak index 1 whose clipped snr
equals min_snr exactly, so the strict inequality of the claim fails (the
scipy height filter keeps equality). -/
theorem c6_cex : resPeaks (PeakSearch.calculate cfg1 spec1) = [1] ∧
    (resSnr (PeakSearch.calculate cfg1 spec1)).getD 1 .nan = .fin 1 ∧
    ¬ npLt (.fin cfg1.min_snr) ((resSnr (PeakSearch.calculate cfg1 spec1)).getD 1 .nan) := by
  refine ⟨PeakSearch.calc1_peaks, ?_, ?_⟩
  · rw [PeakSearch.calc1_snr]
    rfl
  · rw [PeakSearch.calc1_snr]
    show ¬ ((1 : ℝ) < 1)
    exact lt_irrefl 1

/-- C7 counterexample: construction succeeds although ref_x = 0 is
non-positive (no validation error is raised). -/
theorem c7_cex : cfg2.ref_x ≤ 0 ∧ resOk (PeakSearch.init cfg2 spec1) = true := by
  constructor
  · norm_num [cfg2]
  · rfl

/-- C7 witness: the corrected statement applied to cfg2 and spec1. -/
theorem c7_witness : resOk (PeakSearch.init cfg2 spec1) = true :=
  PeakSearch.c7_no_refx_validation cfg2 spec1 rfl (by simp [spec1]) (by norm_num [cfg2])

/-- C8 counterexample: with the degenerate one-channel grid, convolving an
all-zero counts vector propagates NaN into peak_plus_bkg instead of
producing zero. -/
theorem c8_cex : PeakSearch.peak_plus_bkg cfg1 edges2 [0] 0 = .nan := by
  unfold PeakSearch.peak_plus_bkg
  rw [show PeakSearch.nChannels edges2 = 1 from rfl, show List.range 1 = [0] from rfl]
  simp only [List.map_cons, List.map_nil]
  rw [PeakSearch.kmat200_nan]
  simp

/-- C8 witness: the corrected statement on the all-finite kernel matrix of
edgesW with all-zero counts. -/
theorem c8_witness :
    PeakSearch.peak_plus_bkg cfg1 edgesW [0, 0, 0, 0] 0 = .fin 0 ∧
    PeakSearch.bkg cfg1 edgesW [0, 0, 0, 0] 0 = .fin 0 ∧
    PeakSearch.signal cfg1 edgesW [0, 0, 0, 0] 0 = .fin 0 ∧
    PeakSearch.noise cfg1 edgesW [0, 0, 0, 0] 0 = .fin 0 ∧
    PeakSearch.snr cfg1 edgesW [0, 0, 0, 0] 0 = .fin 0 :=
  PeakSearch.c8_convolve_zero_data cfg1 edgesW [0, 0, 0, 0] 0
    (fun i2 j hi2 hj => by
      rw [show PeakSearch.nChannels edgesW = 4 from rfl] at hi2 hj
      interval_cases j
      · exact PeakSearch.kWfin0 i2 hi2
      · exact PeakSearch.kWfin1 i2 hi2
      · exact PeakSearch.kWfin2 i2 hi2
      · exact PeakSearch.kWfin3 i2 hi2)
    (fun j => by
      rcases j with _ | _ | _ | _ | j <;> rfl)
    (by norm_num [PeakSearch.nChannels, edgesW])

/-- C9 witness: the decomposition identity at row 0 of the concrete
convolution. -/
theorem c9_witness : PeakSearch.signal cfg1 edgesW spec1.counts 0 =
    npSub (PeakSearch.peak_plus_bkg cfg1 edgesW spec1.counts 0)
      (PeakSearch.bkg cfg1 edgesW spec1.counts 0) :=
  PeakSearch.c9_signal_decomposition cfg1 edgesW spec1.counts 0
    (by norm_num [PeakSearch.nChannels, edgesW])

/-- C10 witness: an instance of a strict subclass of Spectrum is rejected. -/
theorem c10_witness : PeakSearch.init cfg1 specSub =
    .error "spectrum must be a Spectrum object" :=
  PeakSearch.c10_exact_type_check cfg1 specSub (by decide)
